import Mathlib

/-!
Verification of the structured-data extractor (`src/app.py`).

The core of the program is a small pipeline over JSON-like values:
`flatten_item` (path flattener), `guess_item_type` (item classifier),
`normalize_items` (syntax normalizer), `safe_json` (compact JSON
serialization) and the per-URL run loop.  We embed those functions
shallowly over an explicit JSON-like value type and prove the spec's
claims about them.
-/

set_option maxHeartbeats 1000000
set_option linter.unusedVariables false

namespace App

/-- A JSON-like value: the runtime shape of items returned by the
extraction collaborator and consumed by the core.  Mirrors Python's
`None | bool | int | str | list | dict` (floats are out of scope of the
embedding; the code never constructs one itself). -/
inductive Value : Type where
  | null : Value
  | boolV : Bool → Value
  | intV : Int → Value
  | strV : String → Value
  | arr : List Value → Value
  | obj : List (String × Value) → Value

/-- Decimal digit character, `digitChar d` for `d < 10`. -/
def digitChar (d : Nat) : Char := Char.ofNat (48 + d)

/-- Decimal representation of a natural number as a character list
(mathematical form, used in proofs). -/
def natRep (n : Nat) : List Char :=
  if h : n < 10 then [digitChar n]
  else natRep (n / 10) ++ [digitChar (n % 10)]
  decreasing_by exact Nat.div_lt_self (by omega) (by omega)

/-- Fuel-driven accumulator loop computing the decimal digits of `n`
in front of `acc`; `fuel ≥ n` is always enough.  Structural in `fuel`
so that concrete instances compute by `decide`. -/
def natStrCore : Nat → Nat → List Char → List Char
  | 0, _, acc => acc
  | fuel + 1, n, acc =>
    if n = 0 then acc
    else natStrCore fuel (n / 10) (digitChar (n % 10) :: acc)

/-- Decimal string of a natural number, the embedding of Python's
`str(i)` for the non-negative integers the code feeds it. -/
def natStr (n : Nat) : String := if n = 0 then "0" else ⟨natStrCore n n []⟩

/-- Embedding of Python's `str` on integers. -/
def intStr (i : Int) : String :=
  if i < 0 then "-" ++ natStr i.natAbs else natStr i.natAbs

/-- Embedding of Python's `str` on booleans. -/
def boolStr (b : Bool) : String := if b then "True" else "False"

/-- One accumulator entry of `flatten_item`: the dict
`{"property": ..., "value": ...}` built at `src/app.py:58-63`. -/
structure Row where
  property : String
  value : String
  deriving DecidableEq, Repr

/-- Path extension for mapping keys: `f"{prefix}.{k}" if prefix else k`
(`src/app.py:53`). -/
def joinKey (pfx k : String) : String := if pfx = "" then k else pfx ++ "." ++ k

/-- Path extension for sequence indices: `f"{prefix}[{i}]"`
(`src/app.py:56`). -/
def joinIdx (pfx : String) (i : Nat) : String := pfx ++ "[" ++ natStr i ++ "]"

mutual

/-- Embedding of `flatten_item` (`src/app.py:50-63`): recursively walk
the value, appending one row per scalar leaf to the accumulator `rows`.
The Python scalar branch appends `"" if value is None else str(value)`. -/
def flatten_item : String → Value → List Row → List Row
  | pfx, Value.obj kvs, rows => flattenObj pfx kvs rows
  | pfx, Value.arr xs, rows => flattenArr pfx 0 xs rows
  | pfx, Value.null, rows => rows ++ [⟨pfx, ""⟩]
  | pfx, Value.boolV b, rows => rows ++ [⟨pfx, boolStr b⟩]
  | pfx, Value.intV i, rows => rows ++ [⟨pfx, intStr i⟩]
  | pfx, Value.strV s, rows => rows ++ [⟨pfx, s⟩]
termination_by structural _ v _ => v

/-- The `for k, v in value.items()` loop of `flatten_item`, threading the
accumulator left to right. -/
def flattenObj : String → List (String × Value) → List Row → List Row
  | _, [], rows => rows
  | pfx, (k, v) :: rest, rows => flattenObj pfx rest (flatten_item (joinKey pfx k) v rows)
termination_by structural _ kvs _ => kvs

/-- The `for i, v in enumerate(value)` loop of `flatten_item`, with `i`
the index of the head element. -/
def flattenArr : String → Nat → List Value → List Row → List Row
  | _, _, [], rows => rows
  | pfx, i, v :: rest, rows => flattenArr pfx (i + 1) rest (flatten_item (joinIdx pfx i) v rows)
termination_by structural _ _ xs _ => xs

end

/-- The rows `flatten_item` contributes on its own, independent of the
accumulator it is handed. -/
def frag (pfx : String) (v : Value) : List Row := flatten_item pfx v []

/-- The rows the mapping loop contributes on its own. -/
def fragObj (pfx : String) (kvs : List (String × Value)) : List Row := flattenObj pfx kvs []

/-- The rows the sequence loop contributes on its own. -/
def fragArr (pfx : String) (i : Nat) (xs : List Value) : List Row := flattenArr pfx i xs []

mutual

/-- Number of scalar leaves (scalars and nulls) of a value; an empty
mapping or sequence contributes none. -/
def numLeaves : Value → Nat
  | Value.obj kvs => numLeavesObj kvs
  | Value.arr xs => numLeavesArr xs
  | _ => 1
termination_by structural v => v

/-- Total number of scalar leaves below the entries of a mapping. -/
def numLeavesObj : List (String × Value) → Nat
  | [] => 0
  | (_, v) :: rest => numLeaves v + numLeavesObj rest
termination_by structural kvs => kvs

/-- Total number of scalar leaves below the elements of a sequence. -/
def numLeavesArr : List Value → Nat
  | [] => 0
  | v :: rest => numLeaves v + numLeavesArr rest
termination_by structural xs => xs

end

/-- The single-quote character (written by code point to keep literals
simple). -/
def squoteC : Char := Char.ofNat 39

/-- Left and right curly-brace characters (written by code point). -/
def lbraceC : Char := Char.ofNat 123

def rbraceC : Char := Char.ofNat 125

/-- Escape a character inside Python's `repr` of a string (simplified:
always single-quoted, escaping backslash and the quote). -/
def strReprEsc : List Char → List Char
  | [] => []
  | c :: rest =>
    (if c = '\\' then ['\\', '\\'] else if c = squoteC then ['\\', squoteC] else [c]) ++
      strReprEsc rest

/-- Python `repr` of a string (simplified single-quote form). -/
def strRepr (s : String) : String := ⟨squoteC :: (strReprEsc s.data ++ [squoteC])⟩

mutual

/-- Python `repr` of a value: containers render their elements with
`repr`, strings are quoted. -/
def pyRepr : Value → String
  | Value.null => "None"
  | Value.boolV b => boolStr b
  | Value.intV i => intStr i
  | Value.strV s => strRepr s
  | Value.arr xs => "[" ++ String.intercalate ", " (pyReprList xs) ++ "]"
  | Value.obj kvs => "\x7b" ++ String.intercalate ", " (pyReprFields kvs) ++ "\x7d"
termination_by structural v => v

def pyReprList : List Value → List String
  | [] => []
  | v :: rest => pyRepr v :: pyReprList rest
termination_by structural xs => xs

def pyReprFields : List (String × Value) → List String
  | [] => []
  | (k, v) :: rest => (strRepr k ++ ": " ++ pyRepr v) :: pyReprFields rest
termination_by structural kvs => kvs

end

/-- Python `str` of a value: identical to `repr` except that a string
renders as itself, unquoted. -/
def pyStr : Value → String
  | Value.strV s => s
  | v => pyRepr v

/-- Python truthiness of a value: `None`, `False`, `0`, `""`, `[]` and
an empty dict are falsy, everything else truthy. -/
def truthy : Value → Bool
  | Value.null => false
  | Value.boolV b => b
  | Value.intV i => decide (i ≠ 0)
  | Value.strV s => decide (s ≠ "")
  | Value.arr xs => !xs.isEmpty
  | Value.obj kvs => !kvs.isEmpty

/-- Truthiness of `dict.get`'s result (`None` when the key is absent). -/
def truthyO : Option Value → Bool
  | none => false
  | some v => truthy v

/-- Embedding of Python's `dict.get`: first binding of the key, if any. -/
def dictGet (kvs : List (String × Value)) (k : String) : Option Value :=
  (kvs.find? fun p => p.1 = k).map Prod.snd

/-- Embedding of `guess_item_type` (`src/app.py:40-47`): pick `@type` if
truthy else `type`; join a list with commas, stringify a truthy scalar,
otherwise return the empty string. -/
def guess_item_type : Value → String
  | Value.obj kvs =>
    match (if truthyO (dictGet kvs "@type") then dictGet kvs "@type" else dictGet kvs "type") with
    | some (Value.arr xs) => String.intercalate "," (xs.map pyStr)
    | some v => if truthy v then pyStr v else ""
    | none => ""
  | _ => ""

/-- The three recognized syntaxes, in the order the code iterates them
(`src/app.py:32`). -/
def threeSyntaxes : List String := ["json-ld", "microdata", "rdfa"]

/-- The per-key normalization of `normalize_items`:
`v = extracted.get(k) or []; if not isinstance(v, list): v = [v]`. -/
def normValue : Option Value → List Value
  | some (Value.arr xs) => xs
  | some v => if truthy v then [v] else []
  | none => []

/-- Embedding of `normalize_items` (`src/app.py:30-37`). -/
def normalize_items (extracted : List (String × Value)) : List (String × List Value) :=
  threeSyntaxes.map fun k => (k, normValue (dictGet extracted k))

/-- Lower-case hexadecimal digit character for `d < 16`. -/
def hexDigit (d : Nat) : Char := if d < 10 then digitChar d else Char.ofNat (87 + d)

/-- JSON string escaping as performed by `json.dumps` with
`ensure_ascii=False`: quote, backslash and the named control characters
get two-character escapes, remaining control characters get `\u00XX`,
and everything else is emitted verbatim. -/
def jEscChar (c : Char) : List Char :=
  if c = '"' then ['\\', '"']
  else if c = '\\' then ['\\', '\\']
  else if c = Char.ofNat 10 then ['\\', 'n']
  else if c = Char.ofNat 9 then ['\\', 't']
  else if c = Char.ofNat 13 then ['\\', 'r']
  else if c = Char.ofNat 8 then ['\\', 'b']
  else if c = Char.ofNat 12 then ['\\', 'f']
  else if c.toNat < 32 then ['\\', 'u', '0', '0', hexDigit (c.toNat / 16), hexDigit (c.toNat % 16)]
  else [c]

def jEsc : List Char → List Char
  | [] => []
  | c :: rest => jEscChar c ++ jEsc rest

/-- A JSON string literal for `s`. -/
def jStr (s : String) : String := "\"" ++ ⟨jEsc s.data⟩ ++ "\""

mutual

/-- Compact JSON serialization of a value: the output of
`json.dumps(obj, ensure_ascii=False, separators=(",", ":"))` on
JSON-representable values (the `default=str` fallback never fires on
them). -/
def jdump : Value → String
  | Value.null => "null"
  | Value.boolV b => if b then "true" else "false"
  | Value.intV i => intStr i
  | Value.strV s => jStr s
  | Value.arr xs => "[" ++ jdumpElems xs ++ "]"
  | Value.obj kvs => String.singleton lbraceC ++ jdumpFields kvs ++ String.singleton rbraceC
termination_by structural v => v

/-- The comma-joined serializations of a list's elements. -/
def jdumpElems : List Value → String
  | [] => ""
  | [v] => jdump v
  | v :: w :: r => jdump v ++ "," ++ jdumpElems (w :: r)
termination_by structural xs => xs

/-- The comma-joined `key:value` serializations of a dict's entries. -/
def jdumpFields : List (String × Value) → String
  | [] => ""
  | [(k, v)] => jStr k ++ ":" ++ jdump v
  | (k, v) :: kv :: r => jStr k ++ ":" ++ jdump v ++ "," ++ jdumpFields (kv :: r)
termination_by structural kvs => kvs

end

/-- Embedding of `safe_json` (`src/app.py:13-14`). -/
def safe_json (v : Value) : String := jdump v

/-- Decimal digit test. -/
def isDigitC (c : Char) : Bool := 48 ≤ c.toNat && c.toNat ≤ 57

/-- Lower-case-hex digit test (the only hex form the serializer emits). -/
def isHexC (c : Char) : Bool := isDigitC c || (97 ≤ c.toNat && c.toNat ≤ 102)

/-- Numeric value of a hex digit character. -/
def hexVal (c : Char) : Nat := if isDigitC c then c.toNat - 48 else c.toNat - 87

/-- Value of a list of decimal digit characters, most significant first. -/
def digsVal (l : List Char) : Nat := l.foldl (fun a c => 10 * a + (c.toNat - 48)) 0

/-- Translation of a JSON two-character escape. -/
def unescChar (c : Char) : Char :=
  if c = 'n' then Char.ofNat 10
  else if c = 't' then Char.ofNat 9
  else if c = 'r' then Char.ofNat 13
  else if c = 'b' then Char.ofNat 8
  else if c = 'f' then Char.ofNat 12
  else c

/-- Is `c` one of the two-character escapes accepted after a backslash? -/
def isSimpleEsc (c : Char) : Bool :=
  c = '"' || c = '\\' || c = '/' || c = 'n' || c = 't' || c = 'r' || c = 'b' || c = 'f'

mutual

/-- Modelled from the spec: the body of a JSON string (after the opening
quote) as read by the deserializer the summary must round-trip through;
returns the decoded characters and the input after the closing quote. -/
def parseStrChars : List Char → Option (List Char × List Char)
  | [] => none
  | c :: rest =>
    if c = '"' then some ([], rest)
    else if c = '\\' then parseEscape rest
    else (parseStrChars rest).map fun p => (c :: p.1, p.2)
termination_by structural cs => cs

/-- Modelled from the spec: the input after a backslash inside a JSON
string. -/
def parseEscape : List Char → Option (List Char × List Char)
  | [] => none
  | e :: r2 =>
    if e = 'u' then parseHex4 r2
    else if isSimpleEsc e then (parseStrChars r2).map fun p => (unescChar e :: p.1, p.2)
    else none
termination_by structural cs => cs

/-- Modelled from the spec: four hex digits of a `\u` escape and the
remaining string body. -/
def parseHex4 : List Char → Option (List Char × List Char)
  | h1 :: h2 :: h3 :: h4 :: r3 =>
    if isHexC h1 && isHexC h2 && isHexC h3 && isHexC h4 then
      (parseStrChars r3).map fun p =>
        (Char.ofNat (((hexVal h1 * 16 + hexVal h2) * 16 + hexVal h3) * 16 + hexVal h4) :: p.1,
          p.2)
    else none
  | _ => none
termination_by structural cs => cs

end

/-- Modelled from the spec: read a decimal natural number off the front
of the input. -/
def parseNatNum (cs : List Char) : Option (Nat × List Char) :=
  let digs := cs.takeWhile isDigitC
  if digs.isEmpty then none else some (digsVal digs, cs.drop digs.length)

/-- Modelled from the spec: read a JSON integer (our value domain has no
floats, so fractions and exponents are not accepted). -/
def parseNum : List Char → Option (Value × List Char)
  | [] => none
  | c :: rest =>
    if c = '-' then (parseNatNum rest).map fun p => (Value.intV (-(p.1 : Int)), p.2)
    else (parseNatNum (c :: rest)).map fun p => (Value.intV (p.1 : Int), p.2)

/-- Match a literal tail such as `rue` of `true`. -/
def expectChars : List Char → List Char → Option (List Char)
  | [], cs => some cs
  | _ :: _, [] => none
  | e :: es, c :: cs => if c = e then expectChars es cs else none

mutual

/-- Modelled from the spec: recursive-descent JSON value reader used as
the deserializer for the round-trip property ("must round-trip through
parsing").  `fuel` bounds the recursion depth; the top-level wrapper
passes enough for any input it is given. -/
def parseVal : Nat → List Char → Option (Value × List Char)
  | 0, _ => none
  | _ + 1, [] => none
  | fuel + 1, c :: rest =>
    if c = '"' then (parseStrChars rest).map fun p => (Value.strV ⟨p.1⟩, p.2)
    else if c = '[' then parseArrTail fuel rest
    else if c = lbraceC then parseObjTail fuel rest
    else if c = 't' then (expectChars ['r', 'u', 'e'] rest).map fun r => (Value.boolV true, r)
    else if c = 'f' then (expectChars ['a', 'l', 's', 'e'] rest).map fun r => (Value.boolV false, r)
    else if c = 'n' then (expectChars ['u', 'l', 'l'] rest).map fun r => (Value.null, r)
    else parseNum (c :: rest)
termination_by fuel _ => (fuel, 2)

/-- Modelled from the spec: the input after `[` — either an immediate
`]` or one-or-more elements. -/
def parseArrTail : Nat → List Char → Option (Value × List Char)
  | _, [] => none
  | fuel, c2 :: r2 =>
    if c2 = ']' then some (Value.arr [], r2)
    else (parseElems fuel (c2 :: r2)).map fun p => (Value.arr p.1, p.2)
termination_by fuel _ => (fuel, 1)

/-- Modelled from the spec: the input after the opening brace — either
an immediate closing brace or one-or-more entries. -/
def parseObjTail : Nat → List Char → Option (Value × List Char)
  | _, [] => none
  | fuel, c2 :: r2 =>
    if c2 = rbraceC then some (Value.obj [], r2)
    else (parseFields fuel (c2 :: r2)).map fun p => (Value.obj p.1, p.2)
termination_by fuel _ => (fuel, 1)

/-- Modelled from the spec: one-or-more comma-separated array elements
followed by `]`. -/
def parseElems : Nat → List Char → Option (List Value × List Char)
  | 0, _ => none
  | fuel + 1, cs =>
    (parseVal fuel cs).bind fun p =>
      match p.2 with
      | ',' :: r2 => (parseElems fuel r2).map fun q => (p.1 :: q.1, q.2)
      | ']' :: r2 => some ([p.1], r2)
      | _ => none
termination_by fuel _ => (fuel, 0)

/-- Modelled from the spec: one-or-more comma-separated `"key":value`
object entries followed by the closing brace. -/
def parseFields : Nat → List Char → Option (List (String × Value) × List Char)
  | 0, _ => none
  | _ + 1, [] => none
  | fuel + 1, c :: rest =>
    if c = '"' then
      (parseStrChars rest).bind fun pk =>
        match pk.2 with
        | ':' :: r2 =>
          (parseVal fuel r2).bind fun pv =>
            match pv.2 with
            | ',' :: r4 => (parseFields fuel r4).map fun q => ((⟨pk.1⟩, pv.1) :: q.1, q.2)
            | c3 :: r4 =>
              if c3 = rbraceC then some ([(⟨pk.1⟩, pv.1)], r4) else none
            | [] => none
        | _ => none
    else none
termination_by fuel _ => (fuel, 0)

end

/-- Modelled from the spec: the JSON deserializer for the round-trip
property; succeeds only when the whole input is one JSON value. -/
def loads (s : String) : Option Value :=
  match parseVal (2 * s.length + 2) s.data with
  | some (v, []) => some v
  | _ => none

mutual

/-- Fuel bound: recursion depth needed by the reader on the output of
`jdump`. -/
def pfuel : Value → Nat
  | Value.arr xs => 1 + pfuelList xs
  | Value.obj kvs => 1 + pfuelFields kvs
  | _ => 1
termination_by structural v => v

def pfuelList : List Value → Nat
  | [] => 0
  | v :: rest => 1 + pfuel v + pfuelList rest
termination_by structural xs => xs

def pfuelFields : List (String × Value) → Nat
  | [] => 0
  | (_, v) :: rest => 1 + pfuel v + pfuelFields rest
termination_by structural kvs => kvs

end

/-- One cell of a flat output row: the Python dicts mix strings and the
integer `item_index`, so a cell is one or the other. -/
inductive Cell : Type where
  | s : String → Cell
  | n : Nat → Cell
  deriving DecidableEq, Repr

/-- One row of the `flat_properties` output
(`src/app.py:86-95` and `src/app.py:140-149`). -/
structure FlatRow where
  url : String
  synName : String
  item_index : Cell
  item_type : String
  property : String
  value : String
  deriving DecidableEq, Repr

/-- One row of the `per_url_json` output (`src/app.py:132-137`). -/
structure PerUrlRow where
  url : String
  structured_data_json : String
  deriving DecidableEq, Repr

/-- The value returned by `extract_structured_data`
(`src/app.py:97-101`). -/
structure UrlResult where
  url : String
  jsonSummary : String
  flat : List FlatRow
  deriving DecidableEq, Repr

/-- The flat rows of one item (`src/app.py:82-95`): flatten into `tmp`,
then tag each fragment with url, syntax, index and type. -/
def itemRows (finalUrl synName : String) (idx : Nat) (item : Value) : List FlatRow :=
  (flatten_item "" item []).map fun t =>
    ⟨finalUrl, synName, Cell.n idx, guess_item_type item, t.property, t.value⟩

/-- The `for idx, item in enumerate(items)` loop of
`extract_structured_data`. -/
def itemsRows (finalUrl synName : String) : Nat → List Value → List FlatRow
  | _, [] => []
  | idx, item :: rest => itemRows finalUrl synName idx item ++ itemsRows finalUrl synName (idx + 1) rest

/-- The `for syntax, items in items_by_syntax.items()` loop of
`extract_structured_data`. -/
def syntaxRows (finalUrl : String) : List (String × List Value) → List FlatRow
  | [] => []
  | (synName, items) :: rest => itemsRows finalUrl synName 0 items ++ syntaxRows finalUrl rest

/-- A normalized result set as the dict `safe_json` receives. -/
def normObj (items : List (String × List Value)) : Value :=
  Value.obj (items.map fun p => (p.1, Value.arr p.2))

/-- Embedding of `extract_structured_data` (`src/app.py:66-101`),
parameterized by its two effectful collaborators: `fetchO` models
`fetch_html` (returning body text and final resolved URL, or the text of
the raised exception) and `extructO` models `extruct.extract` plus
`get_base_url` (returning the raw per-syntax mapping, or an error). -/
def extract_structured_data (fetchO : String → Except String (String × String))
    (extructO : String → String → Except String (List (String × Value)))
    (url : String) : Except String UrlResult :=
  match fetchO url with
  | Except.error e => Except.error e
  | Except.ok (html, finalUrl) =>
    match extructO html finalUrl with
    | Except.error e => Except.error e
    | Except.ok extracted =>
      let items_by_syntax := normalize_items extracted
      Except.ok ⟨finalUrl, safe_json (normObj items_by_syntax), syntaxRows finalUrl items_by_syntax⟩

/-- One iteration of the batch loop (`src/app.py:129-149`): on success
append the summary row and extend the flat rows; on failure append the
single ERROR row carrying the input URL and the error text. -/
def runStep (res : String → Except String UrlResult)
    (acc : List FlatRow × List PerUrlRow) (url : String) : List FlatRow × List PerUrlRow :=
  match res url with
  | Except.ok r => (acc.1 ++ r.flat, acc.2 ++ [⟨r.url, r.jsonSummary⟩])
  | Except.error e => (acc.1 ++ [⟨url, "", Cell.s "", "", "ERROR", e⟩], acc.2)

/-- The batch loop over all URLs, starting from the two empty
accumulators `all_rows` and `per_url_rows`. -/
def runLoop (res : String → Except String UrlResult) (urls : List String) :
    List FlatRow × List PerUrlRow :=
  urls.foldl (runStep res) ([], [])

/-- ASCII whitespace, the characters `str.strip` removes (Python also
strips some further Unicode spaces; the embedding models the ASCII
ones). -/
def isSpaceC (c : Char) : Bool :=
  c = ' ' || c.toNat = 9 || c.toNat = 10 || c.toNat = 11 || c.toNat = 12 || c.toNat = 13

/-- Embedding of `str.strip`: drop whitespace from both ends. -/
def stripChars (cs : List Char) : List Char :=
  ((cs.dropWhile isSpaceC).reverse.dropWhile isSpaceC).reverse

/-- Embedding of `str.splitlines`, modelled as splitting on newline. -/
def splitLinesAux : List Char → List Char → List (List Char)
  | [], cur => [cur.reverse]
  | c :: rest, cur =>
    if c = Char.ofNat 10 then cur.reverse :: splitLinesAux rest []
    else splitLinesAux rest (c :: cur)

def splitLines (cs : List Char) : List (List Char) := splitLinesAux cs []

/-- Embedding of the URL-list preprocessing (`src/app.py:119`):
`[u.strip() for u in urls_input.splitlines() if u.strip()]`. -/
def parseUrls (input : String) : List String :=
  ((splitLines input.data).map fun l => (⟨stripChars l⟩ : String)).filter fun s => s ≠ ""

/-- The guarded run (`src/app.py:118-154`): an empty URL list is
rejected upfront (`st.error`, `st.stop`) producing no rows and no
export, modelled as `none`. -/
def runApp (res : String → Except String UrlResult) (input : String) :
    Option (List FlatRow × List PerUrlRow) :=
  if (parseUrls input).isEmpty then none else some (runLoop res (parseUrls input))

/-- The property paths of all rows an item flattens to. -/
def itemPaths (v : Value) : List String := (flatten_item "" v []).map Row.property

/-- A mapping key that keeps property paths unambiguous: nonempty and
free of the separator characters `.` and `[`. -/
def goodKey (k : String) : Prop := k ≠ "" ∧ ∀ c ∈ k.data, c ≠ '.' ∧ c ≠ '['

mutual

/-- Well-formed items for the amended path-reconstruction claim: every
mapping in the value has pairwise-distinct good keys. -/
def WellFormed : Value → Prop
  | Value.obj kvs => (kvs.map Prod.fst).Nodup ∧ WFFields kvs
  | Value.arr xs => WFElems xs
  | _ => True
termination_by structural v => v

def WFFields : List (String × Value) → Prop
  | [] => True
  | (k, v) :: rest => goodKey k ∧ WellFormed v ∧ WFFields rest
termination_by structural kvs => kvs

def WFElems : List Value → Prop
  | [] => True
  | v :: rest => WellFormed v ∧ WFElems rest
termination_by structural xs => xs

end

mutual

/-- The path suffixes a value contributes below a nonempty path: the
paths of its rows are exactly the current path followed by one suffix
each. -/
def sfx : Value → List String
  | Value.obj kvs => sfxObj kvs
  | Value.arr xs => sfxArr 0 xs
  | _ => [""]
termination_by structural v => v

def sfxObj : List (String × Value) → List String
  | [] => []
  | (k, v) :: rest => (sfx v).map (fun s => "." ++ k ++ s) ++ sfxObj rest
termination_by structural kvs => kvs

def sfxArr : Nat → List Value → List String
  | _, [] => []
  | i, v :: rest => (sfx v).map (fun s => "[" ++ natStr i ++ "]" ++ s) ++ sfxArr (i + 1) rest
termination_by structural _ xs => xs

end

/-- The path suffixes contributed at the root by a mapping's entries,
where the first segment is the bare key. -/
def sfxObjRoot : List (String × Value) → List String
  | [] => []
  | (k, v) :: rest => (sfx v).map (fun s => k ++ s) ++ sfxObjRoot rest

/-- Characters that may appear in a path key: anything but the two
separator openers. -/
def notSep (c : Char) : Bool := !(c == '.' || c == '[')

/-- A path tail is empty or starts with a separator; this is the shape
of every suffix `sfx` produces. -/
def goodTail (s : String) : Prop :=
  s.data = [] ∨ (∃ t, s.data = '.' :: t) ∨ (∃ t, s.data = '[' :: t)

/-- A tail is digit-free at its head: the shape of every rest the value
reader must hand back unconsumed. -/
def restOk (rest : List Char) : Prop :=
  rest = [] ∨ ∃ c t, rest = c :: t ∧ isDigitC c = false

mutual

theorem flatten_item_acc (pfx : String) (v : Value) (rows : List Row) :
    flatten_item pfx v rows = rows ++ frag pfx v := by
  cases v with
  | obj kvs =>
    show flattenObj pfx kvs rows = rows ++ frag pfx (Value.obj kvs)
    rw [flattenObj_acc pfx kvs rows]
    rfl
  | arr xs =>
    show flattenArr pfx 0 xs rows = rows ++ frag pfx (Value.arr xs)
    rw [flattenArr_acc pfx 0 xs rows]
    rfl
  | null => rfl
  | boolV b => rfl
  | intV i => rfl
  | strV s => rfl
termination_by structural v

theorem flattenObj_acc (pfx : String) (kvs : List (String × Value)) (rows : List Row) :
    flattenObj pfx kvs rows = rows ++ fragObj pfx kvs := by
  cases kvs with
  | nil => simp [flattenObj, fragObj]
  | cons kv rest =>
    obtain ⟨k, v⟩ := kv
    have h2 : fragObj pfx ((k, v) :: rest) =
        flattenObj pfx rest (flatten_item (joinKey pfx k) v []) := by
      unfold fragObj
      rw [flattenObj]
    rw [flattenObj, flattenObj_acc pfx rest, flatten_item_acc (joinKey pfx k) v rows, h2,
      flattenObj_acc pfx rest (flatten_item (joinKey pfx k) v []),
      flatten_item_acc (joinKey pfx k) v []]
    simp
termination_by structural kvs

theorem flattenArr_acc (pfx : String) (i : Nat) (xs : List Value) (rows : List Row) :
    flattenArr pfx i xs rows = rows ++ fragArr pfx i xs := by
  cases xs with
  | nil => simp [flattenArr, fragArr]
  | cons v rest =>
    have h2 : fragArr pfx i (v :: rest) =
        flattenArr pfx (i + 1) rest (flatten_item (joinIdx pfx i) v []) := by
      unfold fragArr
      rw [flattenArr]
    rw [flattenArr, flattenArr_acc pfx (i + 1) rest, flatten_item_acc (joinIdx pfx i) v rows, h2,
      flattenArr_acc pfx (i + 1) rest (flatten_item (joinIdx pfx i) v []),
      flatten_item_acc (joinIdx pfx i) v []]
    simp
termination_by structural xs

end

/-- Unfolding equations for `frag`, phrased over the fragment functions. -/
theorem frag_obj (pfx : String) (kvs : List (String × Value)) :
    frag pfx (Value.obj kvs) = fragObj pfx kvs := rfl

theorem frag_arr (pfx : String) (xs : List Value) :
    frag pfx (Value.arr xs) = fragArr pfx 0 xs := rfl

theorem frag_null (pfx : String) : frag pfx Value.null = [⟨pfx, ""⟩] := rfl

theorem frag_bool (pfx : String) (b : Bool) : frag pfx (Value.boolV b) = [⟨pfx, boolStr b⟩] := rfl

theorem frag_int (pfx : String) (i : Int) : frag pfx (Value.intV i) = [⟨pfx, intStr i⟩] := rfl

theorem frag_str (pfx s : String) : frag pfx (Value.strV s) = [⟨pfx, s⟩] := rfl

theorem fragObj_nil (pfx : String) : fragObj pfx [] = [] := rfl

theorem fragObj_cons (pfx k : String) (v : Value) (rest : List (String × Value)) :
    fragObj pfx ((k, v) :: rest) = frag (joinKey pfx k) v ++ fragObj pfx rest := by
  have h2 : fragObj pfx ((k, v) :: rest) =
      flattenObj pfx rest (flatten_item (joinKey pfx k) v []) := by
    unfold fragObj
    rw [flattenObj]
  rw [h2, flattenObj_acc, flatten_item_acc]
  simp

theorem fragArr_nil (pfx : String) (i : Nat) : fragArr pfx i [] = [] := rfl

theorem fragArr_cons (pfx : String) (i : Nat) (v : Value) (rest : List Value) :
    fragArr pfx i (v :: rest) = frag (joinIdx pfx i) v ++ fragArr pfx (i + 1) rest := by
  have h2 : fragArr pfx i (v :: rest) =
      flattenArr pfx (i + 1) rest (flatten_item (joinIdx pfx i) v []) := by
    unfold fragArr
    rw [flattenArr]
  rw [h2, flattenArr_acc, flatten_item_acc]
  simp


mutual

theorem frag_length (pfx : String) (v : Value) : (frag pfx v).length = numLeaves v := by
  cases v with
  | obj kvs =>
    rw [frag_obj, fragObj_length pfx kvs]
    rfl
  | arr xs =>
    rw [frag_arr, fragArr_length pfx 0 xs]
    rfl
  | null => rfl
  | boolV b => rfl
  | intV i => rfl
  | strV s => rfl
termination_by structural v

theorem fragObj_length (pfx : String) (kvs : List (String × Value)) :
    (fragObj pfx kvs).length = numLeavesObj kvs := by
  cases kvs with
  | nil => rfl
  | cons kv rest =>
    obtain ⟨k, v⟩ := kv
    rw [fragObj_cons, List.length_append, frag_length (joinKey pfx k) v, fragObj_length pfx rest]
    rfl
termination_by structural kvs

theorem fragArr_length (pfx : String) (i : Nat) (xs : List Value) :
    (fragArr pfx i xs).length = numLeavesArr xs := by
  cases xs with
  | nil => rfl
  | cons v rest =>
    rw [fragArr_cons, List.length_append, frag_length (joinIdx pfx i) v,
      fragArr_length pfx (i + 1) rest]
    rfl
termination_by structural xs

end

/-- The mapping loop of `flatten_item` is a left fold over the entries in
their stored (insertion) order. -/
theorem flattenObj_eq_foldl (kvs : List (String × Value)) (pfx : String) (rows : List Row) :
    flattenObj pfx kvs rows =
      kvs.foldl (fun acc kv => flatten_item (joinKey pfx kv.1) kv.2 acc) rows := by
  induction kvs generalizing rows with
  | nil => rfl
  | cons kv rest ih =>
    obtain ⟨k, v⟩ := kv
    rw [flattenObj, ih]
    rfl

/-- The sequence loop of `flatten_item` is a left fold over the
index-annotated elements. -/
theorem flattenArr_eq_foldl (xs : List Value) (i : Nat) (pfx : String) (rows : List Row) :
    flattenArr pfx i xs rows =
      (List.enumFrom i xs).foldl (fun acc iv => flatten_item (joinIdx pfx iv.1) iv.2 acc) rows := by
  induction xs generalizing i rows with
  | nil => rfl
  | cons v rest ih =>
    rw [flattenArr, ih]
    rfl

/-- Claim C1: for every value and prefix, `flatten_item` appends exactly
one row per leaf scalar reachable from the root, appends no row for any
intermediate mapping or sequence node, and appends zero rows for any
empty mapping or empty sequence at any depth. -/
theorem claim_C1 :
    (∀ (pfx : String) (v : Value) (rows : List Row),
      (flatten_item pfx v rows).length = rows.length + numLeaves v)
    ∧ (∀ (pfx : String) (rows : List Row), flatten_item pfx (Value.obj []) rows = rows)
    ∧ (∀ (pfx : String) (rows : List Row), flatten_item pfx (Value.arr []) rows = rows) := by
  refine ⟨fun pfx v rows => ?_, fun pfx rows => rfl, fun pfx rows => rfl⟩
  rw [flatten_item_acc, List.length_append, frag_length]

/-- Claim C2: `flatten_item` descends through mappings with
`parent.key` (bare `key` when the parent path is empty) and through
sequences with `parent[i]`, visiting mapping entries in stored order and
sequence elements in index order; flattening `{"a": {"b": [1, 2]}}` with
empty path yields exactly `a.b[0] = "1"` then `a.b[1] = "2"`. -/
theorem claim_C2 :
    (∀ (pfx : String) (kvs : List (String × Value)) (rows : List Row),
      flatten_item pfx (Value.obj kvs) rows =
        kvs.foldl (fun acc kv =>
          flatten_item (if pfx = "" then kv.1 else pfx ++ "." ++ kv.1) kv.2 acc) rows)
    ∧ (∀ (pfx : String) (xs : List Value) (rows : List Row),
      flatten_item pfx (Value.arr xs) rows =
        xs.enum.foldl (fun acc iv =>
          flatten_item (pfx ++ "[" ++ natStr iv.1 ++ "]") iv.2 acc) rows)
    ∧ flatten_item ""
        (Value.obj [("a", Value.obj [("b", Value.arr [Value.intV 1, Value.intV 2])])]) [] =
      [⟨"a.b[0]", "1"⟩, ⟨"a.b[1]", "2"⟩] := by
  refine ⟨fun pfx kvs rows => ?_, fun pfx xs rows => ?_, by decide⟩
  · show flattenObj pfx kvs rows = _
    rw [flattenObj_eq_foldl]
    rfl
  · show flattenArr pfx 0 xs rows = _
    rw [flattenArr_eq_foldl]
    rfl

/-- Claim C7: flattening a root-level scalar with empty path yields one
row with empty path and the scalar's string form; null stringifies to
the empty string, so `{"x": None}` yields the single row `x = ""`. -/
theorem claim_C7 :
    (∀ s : String, flatten_item "" (Value.strV s) [] = [⟨"", s⟩])
    ∧ (∀ i : Int, flatten_item "" (Value.intV i) [] = [⟨"", intStr i⟩])
    ∧ (∀ b : Bool, flatten_item "" (Value.boolV b) [] = [⟨"", boolStr b⟩])
    ∧ flatten_item "" Value.null [] = [⟨"", ""⟩]
    ∧ flatten_item "" (Value.strV "hello") [] = [⟨"", "hello"⟩]
    ∧ flatten_item "" (Value.obj [("x", Value.null)]) [] = [⟨"x", ""⟩] :=
  ⟨fun s => rfl, fun i => rfl, fun b => rfl, rfl, rfl, by decide⟩

/-- Claim C10: `flatten_item` only appends to its accumulator — the
entries present beforehand are preserved in order as a prefix of the
result, with the value's own fragments after them. -/
theorem claim_C10 : ∀ (pfx : String) (v : Value) (rows : List Row),
    flatten_item pfx v rows = rows ++ flatten_item pfx v [] :=
  fun pfx v rows => flatten_item_acc pfx v rows

/-- The batch loop started on any accumulator pair equals that pair with
the loop's own output appended componentwise. -/
theorem runLoop_acc (res : String → Except String UrlResult) (urls : List String)
    (acc : List FlatRow × List PerUrlRow) :
    urls.foldl (runStep res) acc =
      (acc.1 ++ (runLoop res urls).1, acc.2 ++ (runLoop res urls).2) := by
  induction urls generalizing acc with
  | nil => simp [runLoop]
  | cons u rest ih =>
    rw [List.foldl_cons, ih]
    have hu : runLoop res (u :: rest) = List.foldl (runStep res) (runStep res ([], []) u) rest := rfl
    rw [hu, ih (runStep res ([], []) u)]
    cases h : res u with
    | ok r => simp [runStep, h]
    | error e => simp [runStep, h]

/-- The batch loop distributes over list concatenation. -/
theorem runLoop_append (res : String → Except String UrlResult) (us₁ us₂ : List String) :
    runLoop res (us₁ ++ us₂) =
      ((runLoop res us₁).1 ++ (runLoop res us₂).1,
        (runLoop res us₁).2 ++ (runLoop res us₂).2) := by
  rw [runLoop, List.foldl_append]
  have h1 : List.foldl (runStep res) ([], []) us₁ = runLoop res us₁ := rfl
  rw [h1, runLoop_acc res us₂ (runLoop res us₁)]

/-- Claim C3: when processing one URL fails, the batch loop emits for it
exactly one ERROR row — original input URL, empty syntax, index and type
cells, property `ERROR`, the error text as value — emits no per-URL
summary for it, and processes the remaining URLs exactly as if the
failing URL were absent. -/
theorem claim_C3 (res : String → Except String UrlResult) (us₁ : List String) (u : String)
    (us₂ : List String) (e : String) (h : res u = Except.error e) :
    (runLoop res (us₁ ++ u :: us₂)).1 =
      (runLoop res us₁).1 ++ [⟨u, "", Cell.s "", "", "ERROR", e⟩] ++ (runLoop res us₂).1
    ∧ (runLoop res (us₁ ++ u :: us₂)).2 = (runLoop res (us₁ ++ us₂)).2 := by
  have hu : runLoop res (u :: us₂) =
      ((runLoop res ([u] : List String)).1 ++ (runLoop res us₂).1,
        (runLoop res ([u] : List String)).2 ++ (runLoop res us₂).2) :=
    runLoop_append res [u] us₂
  have h1 : runLoop res ([u] : List String) = ([⟨u, "", Cell.s "", "", "ERROR", e⟩], []) := by
    simp [runLoop, runStep, h]
  rw [runLoop_append res us₁ (u :: us₂), runLoop_append res us₁ us₂, hu, h1]
  simp

/-- Witness for C3 at a concrete three-URL batch whose middle URL
fails. -/
theorem claim_C3_witness :
    (fun u => if u = "u2" then Except.error "boom"
      else Except.ok (⟨u, "j", [⟨u, "json-ld", Cell.n 0, "", "p", "v"⟩]⟩ : UrlResult)) "u2" =
        Except.error "boom"
    ∧ ((runLoop (fun u => if u = "u2" then Except.error "boom"
          else Except.ok (⟨u, "j", [⟨u, "json-ld", Cell.n 0, "", "p", "v"⟩]⟩ : UrlResult))
          (["u1"] ++ "u2" :: ["u3"])).1 =
        (runLoop (fun u => if u = "u2" then Except.error "boom"
          else Except.ok (⟨u, "j", [⟨u, "json-ld", Cell.n 0, "", "p", "v"⟩]⟩ : UrlResult))
          ["u1"]).1 ++ [⟨"u2", "", Cell.s "", "", "ERROR", "boom"⟩] ++
        (runLoop (fun u => if u = "u2" then Except.error "boom"
          else Except.ok (⟨u, "j", [⟨u, "json-ld", Cell.n 0, "", "p", "v"⟩]⟩ : UrlResult))
          ["u3"]).1
      ∧ (runLoop (fun u => if u = "u2" then Except.error "boom"
          else Except.ok (⟨u, "j", [⟨u, "json-ld", Cell.n 0, "", "p", "v"⟩]⟩ : UrlResult))
          (["u1"] ++ "u2" :: ["u3"])).2 =
        (runLoop (fun u => if u = "u2" then Except.error "boom"
          else Except.ok (⟨u, "j", [⟨u, "json-ld", Cell.n 0, "", "p", "v"⟩]⟩ : UrlResult))
          (["u1"] ++ ["u3"])).2) :=
  ⟨rfl, claim_C3 _ ["u1"] "u2" ["u3"] "boom" rfl⟩

/-- Mapping blank-stripping lines and filtering out the empty results
leaves nothing. -/
theorem blankLines_filter (ls : List (List Char)) (h : ∀ l ∈ ls, stripChars l = []) :
    ((ls.map fun l => (⟨stripChars l⟩ : String)).filter fun s => s ≠ "") = [] := by
  induction ls with
  | nil => rfl
  | cons l ls ih =>
    have hl : stripChars l = [] := h l (List.mem_cons_self l ls)
    have hrest := ih fun l' hl' => h l' (List.mem_cons_of_mem _ hl')
    have hs : (⟨stripChars l⟩ : String) = "" := by rw [hl]
    simp [hs, hrest]
    exact fun a ha => by rw [h a (List.mem_cons_of_mem _ ha)]

/-- Claim C9: an input whose lines are all blank after stripping is
rejected upfront: the guarded run returns nothing — no URL processed, no
rows, no export. -/
theorem claim_C9 (res : String → Except String UrlResult) (input : String)
    (h : ∀ l ∈ splitLines input.data, stripChars l = []) :
    runApp res input = none := by
  have hurls : parseUrls input = [] := by
    rw [parseUrls]
    exact blankLines_filter (splitLines input.data) h
  rw [runApp, hurls]
  rfl

/-- Witness for C9 on a whitespace-only input. -/
theorem claim_C9_witness :
    (∀ l ∈ splitLines ("  \n\t\n " : String).data, stripChars l = [])
    ∧ runApp (fun _ => Except.error "e") "  \n\t\n " = none :=
  ⟨by decide, claim_C9 _ _ (by decide)⟩

/-- Claim C5: `normalize_items` returns exactly the three recognized
syntax keys; a list value is kept, a truthy non-list is wrapped, a
missing or falsy value becomes the empty list, and other raw keys are
dropped. -/
theorem claim_C5 :
    (∀ e, (normalize_items e).map Prod.fst = ["json-ld", "microdata", "rdfa"])
    ∧ (∀ e k xs, k ∈ threeSyntaxes → dictGet e k = some (Value.arr xs) →
        ((normalize_items e).find? fun p => p.1 = k) = some (k, xs))
    ∧ (∀ e k v, k ∈ threeSyntaxes → dictGet e k = some v → (∀ xs, v ≠ Value.arr xs) →
        truthy v = true → ((normalize_items e).find? fun p => p.1 = k) = some (k, [v]))
    ∧ (∀ e k, k ∈ threeSyntaxes → truthyO (dictGet e k) = false →
        ((normalize_items e).find? fun p => p.1 = k) = some (k, []))
    ∧ (∀ e k, k ∉ threeSyntaxes → ((normalize_items e).find? fun p => p.1 = k) = none)
    ∧ normalize_items [("json-ld", Value.obj [("@type", Value.strV "X")])] =
        [("json-ld", [Value.obj [("@type", Value.strV "X")]]), ("microdata", []), ("rdfa", [])] := by
  have hfind : ∀ e k, k ∈ threeSyntaxes →
      ((normalize_items e).find? fun p => p.1 = k) = some (k, normValue (dictGet e k)) := by
    intro e k hk
    fin_cases hk <;> simp [normalize_items, threeSyntaxes, List.find?]
  refine ⟨fun e => rfl, fun e k xs hk h => ?_, fun e k v hk h hne ht => ?_,
    fun e k hk hf => ?_, fun e k hk => ?_, rfl⟩
  · rw [hfind e k hk, h]
    rfl
  · rw [hfind e k hk, h]
    cases v with
    | arr xs => exact absurd rfl (hne xs)
    | null => simp [truthy] at ht
    | boolV b => simp [normValue, ht]
    | intV i => simp [normValue, ht]
    | strV s => simp [normValue, ht]
    | obj kvs => simp [normValue, ht]
  · rw [hfind e k hk]
    cases hg : dictGet e k with
    | none => rfl
    | some v =>
      rw [hg] at hf
      cases v with
      | arr xs =>
        cases xs with
        | nil => rfl
        | cons y ys => simp [truthyO, truthy] at hf
      | null => rfl
      | boolV b =>
        simp only [truthyO, truthy] at hf
        simp [normValue, truthy, hf]
      | intV i =>
        simp only [truthyO, truthy] at hf
        simp [normValue, truthy, hf]
      | strV s =>
        simp only [truthyO, truthy] at hf
        simp [normValue, truthy, hf]
      | obj kvs =>
        simp only [truthyO, truthy] at hf
        simp [normValue, truthy, hf]
  · have h1 : ("json-ld" : String) ≠ k := fun h => hk (by rw [← h]; simp [threeSyntaxes])
    have h2 : ("microdata" : String) ≠ k := fun h => hk (by rw [← h]; simp [threeSyntaxes])
    have h3 : ("rdfa" : String) ≠ k := fun h => hk (by rw [← h]; simp [threeSyntaxes])
    simp [normalize_items, threeSyntaxes, List.find?, h1, h2, h3]

/-- Witness for C5: a raw single mapping under `json-ld` is wrapped and
looked up as a one-element list. -/
theorem claim_C5_witness :
    ("json-ld" : String) ∈ threeSyntaxes
    ∧ dictGet [("json-ld", Value.arr [Value.null])] "json-ld" = some (Value.arr [Value.null])
    ∧ ((normalize_items [("json-ld", Value.arr [Value.null])]).find? fun p => p.1 = "json-ld") =
        some ("json-ld", [Value.null]) :=
  ⟨by decide, rfl, claim_C5.2.1 _ _ _ (by decide) rfl⟩

/-- Counterexample to claim C4 as stated: the claim derives the label
from `@type` whenever that field is present, which at
`{"@type": "", "type": "X"}` would stringify the present `@type` value
and yield `""`; the code tests Python truthiness, falls through the
falsy `@type`, and returns `"X"`. -/
theorem claim_C4_counterexample :
    guess_item_type (Value.obj [("@type", Value.strV ""), ("type", Value.strV "X")]) = "X"
    ∧ ("X" : String) ≠ "" :=
  ⟨rfl, by decide⟩

/-- Claim C4 (amended): `guess_item_type` derives the label from `@type`
when that field holds a truthy value, else from `type`; a sequence is
comma-joined (no spaces, order kept, no deduplication), a truthy
non-sequence is stringified directly, and the result is empty when the
item is not a mapping or when the fallback value is absent or a falsy
non-sequence. -/
theorem claim_C4 :
    (∀ kvs xs, dictGet kvs "@type" = some (Value.arr xs) → truthy (Value.arr xs) = true →
      guess_item_type (Value.obj kvs) = String.intercalate "," (xs.map pyStr))
    ∧ (∀ kvs v, dictGet kvs "@type" = some v → truthy v = true → (∀ xs, v ≠ Value.arr xs) →
      guess_item_type (Value.obj kvs) = pyStr v)
    ∧ (∀ kvs xs, truthyO (dictGet kvs "@type") = false →
      dictGet kvs "type" = some (Value.arr xs) →
      guess_item_type (Value.obj kvs) = String.intercalate "," (xs.map pyStr))
    ∧ (∀ kvs v, truthyO (dictGet kvs "@type") = false → dictGet kvs "type" = some v →
      truthy v = true → (∀ xs, v ≠ Value.arr xs) → guess_item_type (Value.obj kvs) = pyStr v)
    ∧ (∀ kvs v, truthyO (dictGet kvs "@type") = false → dictGet kvs "type" = some v →
      truthy v = false → (∀ xs, v ≠ Value.arr xs) → guess_item_type (Value.obj kvs) = "")
    ∧ (∀ kvs, truthyO (dictGet kvs "@type") = false → dictGet kvs "type" = none →
      guess_item_type (Value.obj kvs) = "")
    ∧ (∀ v, (∀ kvs, v ≠ Value.obj kvs) → guess_item_type v = "")
    ∧ guess_item_type
        (Value.obj [("@type", Value.arr [Value.strV "Product", Value.strV "Offer"])]) =
      "Product,Offer"
    ∧ guess_item_type (Value.obj []) = ""
    ∧ guess_item_type (Value.arr [Value.strV "x"]) = ""
    ∧ guess_item_type (Value.strV "x") = "" := by
  refine ⟨fun kvs xs h ht => ?_, fun kvs v h ht hne => ?_, fun kvs xs hf h => ?_,
    fun kvs v hf h ht hne => ?_, fun kvs v hf h ht hne => ?_, fun kvs hf h => ?_,
    fun v hne => ?_, by decide, rfl, rfl, rfl⟩
  · have hsel : (if truthyO (dictGet kvs "@type") then dictGet kvs "@type"
        else dictGet kvs "type") = some (Value.arr xs) := by
      rw [h]
      simp [truthyO, ht]
    rw [guess_item_type, hsel]
  · have hsel : (if truthyO (dictGet kvs "@type") then dictGet kvs "@type"
        else dictGet kvs "type") = some v := by
      rw [h]
      simp [truthyO, ht]
    rw [guess_item_type, hsel]
    cases v with
    | arr xs => exact absurd rfl (hne xs)
    | null => simp [truthy] at ht
    | boolV b => simp [ht]
    | intV i => simp [ht]
    | strV s => simp [ht]
    | obj kvs₂ => simp [ht]
  · have hsel : (if truthyO (dictGet kvs "@type") then dictGet kvs "@type"
        else dictGet kvs "type") = some (Value.arr xs) := by
      simp [hf, h]
    rw [guess_item_type, hsel]
  · have hsel : (if truthyO (dictGet kvs "@type") then dictGet kvs "@type"
        else dictGet kvs "type") = some v := by
      simp [hf, h]
    rw [guess_item_type, hsel]
    cases v with
    | arr xs => exact absurd rfl (hne xs)
    | null => simp [truthy] at ht
    | boolV b => simp [ht]
    | intV i => simp [ht]
    | strV s => simp [ht]
    | obj kvs₂ => simp [ht]
  · have hsel : (if truthyO (dictGet kvs "@type") then dictGet kvs "@type"
        else dictGet kvs "type") = some v := by
      simp [hf, h]
    rw [guess_item_type, hsel]
    cases v with
    | arr xs => exact absurd rfl (hne xs)
    | null => simp [truthy]
    | boolV b => simp [ht]
    | intV i => simp [ht]
    | strV s => simp [ht]
    | obj kvs₂ => simp [ht]
  · have hsel : (if truthyO (dictGet kvs "@type") then dictGet kvs "@type"
        else dictGet kvs "type") = none := by
      simp [hf, h]
    rw [guess_item_type, hsel]
  · cases v with
    | obj kvs => exact absurd rfl (hne kvs)
    | null => rfl
    | boolV b => rfl
    | intV i => rfl
    | strV s => rfl
    | arr xs => rfl

/-- Witness for the amended C4 at `{"@type": ["Product", "Offer"]}`. -/
theorem claim_C4_witness :
    dictGet [("@type", Value.arr [Value.strV "Product", Value.strV "Offer"])] "@type" =
      some (Value.arr [Value.strV "Product", Value.strV "Offer"])
    ∧ truthy (Value.arr [Value.strV "Product", Value.strV "Offer"]) = true
    ∧ guess_item_type
        (Value.obj [("@type", Value.arr [Value.strV "Product", Value.strV "Offer"])]) =
      String.intercalate "," ([Value.strV "Product", Value.strV "Offer"].map pyStr) :=
  ⟨rfl, rfl, claim_C4.1 _ _ rfl rfl⟩

/-- Digit characters are digits. -/
theorem digitChar_isDigit : ∀ d, d < 10 → isDigitC (digitChar d) = true := by decide

/-- Digit characters decode to their value. -/
theorem digitChar_val : ∀ d, d < 10 → (digitChar d).toNat - 48 = d := by decide

/-- Every character of a decimal representation is a digit. -/
theorem natRep_digits (n : Nat) : ∀ c ∈ natRep n, isDigitC c = true := by
  induction n using Nat.strong_induction_on with
  | _ n ih =>
    rw [natRep]
    split
    · next h =>
      intro c hc
      rw [List.mem_singleton] at hc
      rw [hc]
      exact digitChar_isDigit n h
    · next h =>
      intro c hc
      rw [List.mem_append] at hc
      rcases hc with hc | hc
      · exact ih (n / 10) (Nat.div_lt_self (by omega) (by omega)) c hc
      · rw [List.mem_singleton] at hc
        rw [hc]
        exact digitChar_isDigit (n % 10) (Nat.mod_lt n (by omega))

/-- Appending one digit multiplies the decoded value by ten and adds the
digit. -/
theorem digsVal_append_singleton (l : List Char) (c : Char) :
    digsVal (l ++ [c]) = 10 * digsVal l + (c.toNat - 48) := by
  rw [digsVal, digsVal, List.foldl_append]
  rfl

/-- Decoding a decimal representation returns the number. -/
theorem natRep_val (n : Nat) : digsVal (natRep n) = n := by
  induction n using Nat.strong_induction_on with
  | _ n ih =>
    rw [natRep]
    split
    · next h =>
      show digsVal ([] ++ [digitChar n]) = n
      rw [digsVal_append_singleton]
      have := digitChar_val n h
      simp [digsVal]
      omega
    · next h =>
      rw [digsVal_append_singleton, ih (n / 10) (Nat.div_lt_self (by omega) (by omega))]
      have := digitChar_val (n % 10) (Nat.mod_lt n (by omega))
      omega

/-- Decimal representations are injective. -/
theorem natRep_inj (a b : Nat) (h : natRep a = natRep b) : a = b := by
  rw [← natRep_val a, h, natRep_val]

/-- The fueled digit loop on zero returns the accumulator. -/
theorem natStrCore_zero (fuel : Nat) (acc : List Char) : natStrCore fuel 0 acc = acc := by
  cases fuel <;> rfl

/-- With enough fuel the digit loop produces the decimal representation
in front of the accumulator. -/
theorem natStrCore_eq (n : Nat) : ∀ fuel acc, 0 < n → n ≤ fuel →
    natStrCore fuel n acc = natRep n ++ acc := by
  induction n using Nat.strong_induction_on with
  | _ n ih =>
    intro fuel acc h0 hf
    cases fuel with
    | zero => omega
    | succ f =>
      rw [natStrCore]
      simp only [if_neg (by omega : ¬ n = 0)]
      by_cases h10 : n < 10
      · have hdiv : n / 10 = 0 := Nat.div_eq_of_lt h10
        rw [hdiv, natStrCore_zero, natRep]
        simp only [dif_pos h10]
        have : n % 10 = n := Nat.mod_eq_of_lt h10
        rw [this]
        rfl
      · have hdl : n / 10 < n := Nat.div_lt_self h0 (by omega)
        rw [ih (n / 10) hdl f (digitChar (n % 10) :: acc) (Nat.div_pos (by omega) (by omega))
          (by omega)]
        conv_rhs => rw [natRep]
        simp only [dif_neg (by omega : ¬ n < 10)]
        simp

/-- The decimal string's characters are the decimal representation. -/
theorem natStr_data (n : Nat) : (natStr n).data = natRep n := by
  rw [natStr]
  split
  · next h =>
    subst h
    rw [natRep]
    simp only [dif_pos (by omega : (0 : Nat) < 10)]
    decide
  · next h =>
    show natStrCore n n [] = natRep n
    rw [natStrCore_eq n n [] (by omega) (by omega)]
    simp


/-- If two lists over a character class are followed by tails that are
empty or start outside the class, equal concatenations force equal
parts. -/
theorem sep_append (Q : Char → Bool) (l₁ : List Char) : ∀ (l₂ t₁ t₂ : List Char),
    l₁ ++ t₁ = l₂ ++ t₂ →
    (∀ c ∈ l₁, Q c = true) → (∀ c ∈ l₂, Q c = true) →
    (t₁ = [] ∨ ∃ c t, t₁ = c :: t ∧ Q c = false) →
    (t₂ = [] ∨ ∃ c t, t₂ = c :: t ∧ Q c = false) →
    l₁ = l₂ ∧ t₁ = t₂ := by
  induction l₁ with
  | nil =>
    intro l₂ t₁ t₂ h h₁ h₂ g₁ g₂
    cases l₂ with
    | nil => exact ⟨rfl, h⟩
    | cons c l₂' =>
      exfalso
      rw [List.nil_append] at h
      rcases g₁ with rfl | ⟨c', t', ht, hq⟩
      · exact (List.cons_ne_nil c (l₂' ++ t₂)) h.symm
      · rw [ht] at h
        have hc : c' = c := by
          have := congrArg (fun l => l.head?) h
          simpa using this
        rw [hc] at hq
        rw [h₂ c (by simp)] at hq
        cases hq
  | cons c l₁' ih =>
    intro l₂ t₁ t₂ h h₁ h₂ g₁ g₂
    cases l₂ with
    | nil =>
      exfalso
      rw [List.nil_append] at h
      rcases g₂ with rfl | ⟨c', t', ht, hq⟩
      · exact (List.cons_ne_nil c (l₁' ++ t₁)) h
      · rw [ht] at h
        have hc : c = c' := by
          have := congrArg (fun l => l.head?) h
          simpa using this
        rw [← hc] at hq
        rw [h₁ c (by simp)] at hq
        cases hq
    | cons c₂ l₂' =>
      rw [List.cons_append, List.cons_append] at h
      have hc : c = c₂ := by
        have := congrArg (fun l => l.head?) h
        simpa using this
      have htl : l₁' ++ t₁ = l₂' ++ t₂ := by
        have := congrArg List.tail h
        simpa using this
      obtain ⟨he, ht⟩ := ih l₂' t₁ t₂ htl (fun x hx => h₁ x (by simp [hx]))
        (fun x hx => h₂ x (by simp [hx])) g₁ g₂
      exact ⟨by rw [hc, he], ht⟩


/-- Characters of a good key satisfy `notSep`. -/
theorem goodKey_notSep (k : String) (h : goodKey k) : ∀ c ∈ k.data, notSep c = true := by
  intro c hc
  obtain ⟨-, h2⟩ := h
  obtain ⟨hd, hb⟩ := h2 c hc
  simp [notSep, hd, hb]

/-- A good tail is empty or starts with a character failing `notSep`. -/
theorem goodTail_notSep (t : String) (h : goodTail t) :
    t.data = [] ∨ ∃ c l, t.data = c :: l ∧ notSep c = false := by
  rcases h with h | ⟨l, h⟩ | ⟨l, h⟩
  · exact Or.inl h
  · exact Or.inr ⟨'.', l, h, by decide⟩
  · exact Or.inr ⟨'[', l, h, by decide⟩

/-- Data of a dotted key block. -/
theorem dot_block_data (k t : String) :
    ("." ++ k ++ t).data = '.' :: (k.data ++ t.data) := by
  simp [String.data_append]

/-- Data of a bare key block. -/
theorem bare_block_data (k t : String) : (k ++ t).data = k.data ++ t.data := by
  simp [String.data_append]

/-- Data of an index block. -/
theorem idx_block_data (i : Nat) (t : String) :
    ("[" ++ natStr i ++ "]" ++ t).data = '[' :: (natRep i ++ (']' :: t.data)) := by
  simp [String.data_append, natStr_data]

/-- Two dotted key blocks with good keys and good tails are equal only
componentwise. -/
theorem dot_block_inj (k₁ k₂ t₁ t₂ : String) (hk₁ : goodKey k₁) (hk₂ : goodKey k₂)
    (ht₁ : goodTail t₁) (ht₂ : goodTail t₂)
    (h : "." ++ k₁ ++ t₁ = "." ++ k₂ ++ t₂) : k₁ = k₂ ∧ t₁ = t₂ := by
  have hd := congrArg String.data h
  rw [dot_block_data, dot_block_data] at hd
  have hd' : k₁.data ++ t₁.data = k₂.data ++ t₂.data := by
    have := congrArg List.tail hd
    simpa using this
  obtain ⟨he, ht⟩ := sep_append notSep k₁.data k₂.data t₁.data t₂.data hd'
    (goodKey_notSep k₁ hk₁) (goodKey_notSep k₂ hk₂)
    (goodTail_notSep t₁ ht₁) (goodTail_notSep t₂ ht₂)
  exact ⟨String.ext he, String.ext ht⟩

/-- Two bare key blocks with good keys and good tails are equal only
componentwise. -/
theorem bare_block_inj (k₁ k₂ t₁ t₂ : String) (hk₁ : goodKey k₁) (hk₂ : goodKey k₂)
    (ht₁ : goodTail t₁) (ht₂ : goodTail t₂)
    (h : k₁ ++ t₁ = k₂ ++ t₂) : k₁ = k₂ ∧ t₁ = t₂ := by
  have hd := congrArg String.data h
  rw [bare_block_data, bare_block_data] at hd
  obtain ⟨he, ht⟩ := sep_append notSep k₁.data k₂.data t₁.data t₂.data hd
    (goodKey_notSep k₁ hk₁) (goodKey_notSep k₂ hk₂)
    (goodTail_notSep t₁ ht₁) (goodTail_notSep t₂ ht₂)
  exact ⟨String.ext he, String.ext ht⟩

/-- Two index blocks are equal only componentwise. -/
theorem idx_block_inj (i j : Nat) (t₁ t₂ : String)
    (h : "[" ++ natStr i ++ "]" ++ t₁ = "[" ++ natStr j ++ "]" ++ t₂) : i = j ∧ t₁ = t₂ := by
  have hd := congrArg String.data h
  rw [idx_block_data, idx_block_data] at hd
  have hd' : natRep i ++ (']' :: t₁.data) = natRep j ++ (']' :: t₂.data) := by
    have := congrArg List.tail hd
    simpa using this
  obtain ⟨he, ht⟩ := sep_append isDigitC (natRep i) (natRep j) (']' :: t₁.data) (']' :: t₂.data)
    hd' (natRep_digits i) (natRep_digits j)
    (Or.inr ⟨']', t₁.data, rfl, by decide⟩) (Or.inr ⟨']', t₂.data, rfl, by decide⟩)
  refine ⟨natRep_inj i j he, String.ext ?_⟩
  have := congrArg List.tail ht
  simpa using this

/-- Prepending a dotted key block is injective. -/
theorem dot_map_inj (k a b : String) (h : "." ++ k ++ a = "." ++ k ++ b) : a = b := by
  have hd := congrArg String.data h
  rw [dot_block_data, dot_block_data] at hd
  have h2 : k.data ++ a.data = k.data ++ b.data := by
    have := congrArg List.tail hd
    simpa using this
  exact String.ext (List.append_cancel_left h2)

/-- Prepending a bare key block is injective. -/
theorem bare_map_inj (k a b : String) (h : k ++ a = k ++ b) : a = b := by
  have hd := congrArg String.data h
  rw [bare_block_data, bare_block_data] at hd
  exact String.ext (List.append_cancel_left hd)

/-- Prepending an index block is injective. -/
theorem idx_map_inj (i : Nat) (a b : String)
    (h : "[" ++ natStr i ++ "]" ++ a = "[" ++ natStr i ++ "]" ++ b) : a = b :=
  (idx_block_inj i i a b h).2

/-- Every suffix contributed below a mapping starts with a dot. -/
theorem sfxObj_goodTail (kvs : List (String × Value)) : ∀ s ∈ sfxObj kvs, goodTail s := by
  induction kvs with
  | nil => simp [sfxObj]
  | cons kv rest ih =>
    obtain ⟨k, v⟩ := kv
    intro s hs
    rw [sfxObj, List.mem_append] at hs
    rcases hs with hs | hs
    · obtain ⟨t, ht, rfl⟩ := List.mem_map.mp hs
      exact Or.inr (Or.inl ⟨k.data ++ t.data, dot_block_data k t⟩)
    · exact ih s hs

/-- Every suffix contributed below a sequence starts with a bracket. -/
theorem sfxArr_goodTail (xs : List Value) : ∀ (i : Nat), ∀ s ∈ sfxArr i xs, goodTail s := by
  induction xs with
  | nil => simp [sfxArr]
  | cons v rest ih =>
    intro i s hs
    rw [sfxArr, List.mem_append] at hs
    rcases hs with hs | hs
    · obtain ⟨t, ht, rfl⟩ := List.mem_map.mp hs
      exact Or.inr (Or.inr ⟨natRep i ++ (']' :: t.data), idx_block_data i t⟩)
    · exact ih (i + 1) s hs

/-- Every suffix is empty or starts with a separator. -/
theorem sfx_goodTail (v : Value) : ∀ s ∈ sfx v, goodTail s := by
  cases v with
  | obj kvs => exact sfxObj_goodTail kvs
  | arr xs => exact sfxArr_goodTail xs 0
  | null =>
    intro s hs
    have h1 : sfx Value.null = [""] := rfl
    rw [h1, List.mem_singleton] at hs
    rw [hs]
    exact Or.inl rfl
  | boolV b =>
    intro s hs
    have h1 : sfx (Value.boolV b) = [""] := rfl
    rw [h1, List.mem_singleton] at hs
    rw [hs]
    exact Or.inl rfl
  | intV i =>
    intro s hs
    have h1 : sfx (Value.intV i) = [""] := rfl
    rw [h1, List.mem_singleton] at hs
    rw [hs]
    exact Or.inl rfl
  | strV t =>
    intro s hs
    have h1 : sfx (Value.strV t) = [""] := rfl
    rw [h1, List.mem_singleton] at hs
    rw [hs]
    exact Or.inl rfl

/-- Decomposition of membership in a mapping's suffix list. -/
theorem sfxObj_mem (kvs : List (String × Value)) (s : String) (hs : s ∈ sfxObj kvs) :
    ∃ k v t, (k, v) ∈ kvs ∧ t ∈ sfx v ∧ s = "." ++ k ++ t := by
  induction kvs with
  | nil => simp [sfxObj] at hs
  | cons kv rest ih =>
    obtain ⟨k, v⟩ := kv
    rw [sfxObj, List.mem_append] at hs
    rcases hs with hs | hs
    · obtain ⟨t, ht, rfl⟩ := List.mem_map.mp hs
      exact ⟨k, v, t, List.mem_cons_self _ _, ht, rfl⟩
    · obtain ⟨k', v', t', hm, ht', he⟩ := ih hs
      exact ⟨k', v', t', List.mem_cons_of_mem _ hm, ht', he⟩

/-- Decomposition of membership in a sequence's suffix list. -/
theorem sfxArr_mem (xs : List Value) : ∀ (i : Nat) (s : String), s ∈ sfxArr i xs →
    ∃ j v t, i ≤ j ∧ v ∈ xs ∧ t ∈ sfx v ∧ s = "[" ++ natStr j ++ "]" ++ t := by
  induction xs with
  | nil => intro i s hs; simp [sfxArr] at hs
  | cons v rest ih =>
    intro i s hs
    rw [sfxArr, List.mem_append] at hs
    rcases hs with hs | hs
    · obtain ⟨t, ht, rfl⟩ := List.mem_map.mp hs
      exact ⟨i, v, t, le_refl i, List.mem_cons_self _ _, ht, rfl⟩
    · obtain ⟨j, v', t', hij, hm, ht', he⟩ := ih (i + 1) s hs
      exact ⟨j, v', t', by omega, List.mem_cons_of_mem _ hm, ht', he⟩

/-- Decomposition of membership in the root suffix list of a mapping. -/
theorem sfxObjRoot_mem (kvs : List (String × Value)) (s : String) (hs : s ∈ sfxObjRoot kvs) :
    ∃ k v t, (k, v) ∈ kvs ∧ t ∈ sfx v ∧ s = k ++ t := by
  induction kvs with
  | nil => simp [sfxObjRoot] at hs
  | cons kv rest ih =>
    obtain ⟨k, v⟩ := kv
    rw [sfxObjRoot, List.mem_append] at hs
    rcases hs with hs | hs
    · obtain ⟨t, ht, rfl⟩ := List.mem_map.mp hs
      exact ⟨k, v, t, List.mem_cons_self _ _, ht, rfl⟩
    · obtain ⟨k', v', t', hm, ht', he⟩ := ih hs
      exact ⟨k', v', t', List.mem_cons_of_mem _ hm, ht', he⟩

/-- Each entry of a well-formed field list has a good key and a
well-formed value. -/
theorem WFFields_mem (kvs : List (String × Value)) (h : WFFields kvs) :
    ∀ k v, (k, v) ∈ kvs → goodKey k ∧ WellFormed v := by
  induction kvs with
  | nil => intro k v hm; simp at hm
  | cons kv rest ih =>
    obtain ⟨k₀, v₀⟩ := kv
    have h' : goodKey k₀ ∧ WellFormed v₀ ∧ WFFields rest := h
    intro k v hm
    rcases List.mem_cons.mp hm with he | hm'
    · obtain ⟨rfl, rfl⟩ := Prod.mk.injEq .. ▸ he
      injection he with h1 h2
      · exact ⟨h1 ▸ h'.1, h2 ▸ h'.2.1⟩
    · exact ih h'.2.2 k v hm'

/-- Each element of a well-formed element list is well-formed. -/
theorem WFElems_mem (xs : List Value) (h : WFElems xs) : ∀ v ∈ xs, WellFormed v := by
  induction xs with
  | nil => intro v hm; simp at hm
  | cons v₀ rest ih =>
    have h' : WellFormed v₀ ∧ WFElems rest := h
    intro v hm
    rcases List.mem_cons.mp hm with rfl | hm'
    · exact h'.1
    · exact ih h'.2 v hm'

mutual

/-- The suffix list of a well-formed value has no duplicates. -/
theorem sfx_nodup (v : Value) (h : WellFormed v) : (sfx v).Nodup := by
  cases v with
  | obj kvs =>
    have h' : (kvs.map Prod.fst).Nodup ∧ WFFields kvs := h
    exact sfxObj_nodup kvs h'.1 h'.2
  | arr xs => exact sfxArr_nodup xs 0 h
  | null => simp [sfx]
  | boolV b => simp [sfx]
  | intV i => simp [sfx]
  | strV s => simp [sfx]
termination_by structural v

/-- The suffix list below a mapping with distinct good keys and
well-formed values has no duplicates. -/
theorem sfxObj_nodup (kvs : List (String × Value)) (hkeys : (kvs.map Prod.fst).Nodup)
    (hf : WFFields kvs) : (sfxObj kvs).Nodup := by
  cases kvs with
  | nil => simp [sfxObj]
  | cons kv rest =>
    obtain ⟨k, v⟩ := kv
    have hf' : goodKey k ∧ WellFormed v ∧ WFFields rest := hf
    rw [List.map_cons] at hkeys
    have hkeys' := List.nodup_cons.mp hkeys
    rw [sfxObj, List.nodup_append]
    refine ⟨?_, sfxObj_nodup rest hkeys'.2 hf'.2.2, ?_⟩
    · exact List.Nodup.map (fun a b hab => dot_map_inj k a b hab) (sfx_nodup v hf'.2.1)
    · intro x hx hx'
      obtain ⟨t, ht, rfl⟩ := List.mem_map.mp hx
      obtain ⟨k', v', t', hm, ht', he⟩ := sfxObj_mem rest _ hx'
      have hgk' := (WFFields_mem rest hf'.2.2 k' v' hm).1
      have hsep := dot_block_inj k k' t t' hf'.1 hgk'
        (sfx_goodTail v t ht) (sfx_goodTail v' t' ht') he
      have hk'mem : k' ∈ rest.map Prod.fst := List.mem_map_of_mem Prod.fst hm
      rw [← hsep.1] at hk'mem
      exact hkeys'.1 hk'mem
termination_by structural kvs

/-- The suffix list below a sequence of well-formed elements has no
duplicates, whatever the starting index. -/
theorem sfxArr_nodup (xs : List Value) : ∀ (i : Nat), WFElems xs → (sfxArr i xs).Nodup := by
  cases xs with
  | nil => intro i hf; simp [sfxArr]
  | cons v rest =>
    intro i hf
    have hf' : WellFormed v ∧ WFElems rest := hf
    rw [sfxArr, List.nodup_append]
    refine ⟨?_, sfxArr_nodup rest (i + 1) hf'.2, ?_⟩
    · exact List.Nodup.map (fun a b hab => idx_map_inj i a b hab) (sfx_nodup v hf'.1)
    · intro x hx hx'
      obtain ⟨t, ht, rfl⟩ := List.mem_map.mp hx
      obtain ⟨j, v', t', hij, hm, ht', he⟩ := sfxArr_mem rest (i + 1) _ hx'
      have := idx_block_inj i j t t' he
      omega
termination_by structural xs

end

/-- The root suffix list of a mapping with distinct good keys and
well-formed values has no duplicates. -/
theorem sfxObjRoot_nodup (kvs : List (String × Value)) (hkeys : (kvs.map Prod.fst).Nodup)
    (hf : WFFields kvs) : (sfxObjRoot kvs).Nodup := by
  induction kvs with
  | nil => simp [sfxObjRoot]
  | cons kv rest ih =>
    obtain ⟨k, v⟩ := kv
    have hf' : goodKey k ∧ WellFormed v ∧ WFFields rest := hf
    rw [List.map_cons] at hkeys
    have hkeys' := List.nodup_cons.mp hkeys
    rw [sfxObjRoot, List.nodup_append]
    refine ⟨?_, ih hkeys'.2 hf'.2.2, ?_⟩
    · exact List.Nodup.map (fun a b hab => bare_map_inj k a b hab) (sfx_nodup v hf'.2.1)
    · intro x hx hx'
      obtain ⟨t, ht, rfl⟩ := List.mem_map.mp hx
      obtain ⟨k', v', t', hm, ht', he⟩ := sfxObjRoot_mem rest _ hx'
      have hgk' := (WFFields_mem rest hf'.2.2 k' v' hm).1
      have hsep := bare_block_inj k k' t t' hf'.1 hgk'
        (sfx_goodTail v t ht) (sfx_goodTail v' t' ht') he
      have hk'mem : k' ∈ rest.map Prod.fst := List.mem_map_of_mem Prod.fst hm
      rw [← hsep.1] at hk'mem
      exact hkeys'.1 hk'mem

/-- A dotted extension of a path is never empty. -/
theorem dot_ext_ne (pfx k : String) : pfx ++ "." ++ k ≠ "" := by
  intro h
  have hd := congrArg String.data h
  have h1 : (pfx ++ "." ++ k).data = pfx.data ++ ('.' :: k.data) := by
    simp [String.data_append]
  rw [h1] at hd
  simp at hd

/-- An index extension of a path is never empty. -/
theorem idx_ext_ne (pfx : String) (i : Nat) : joinIdx pfx i ≠ "" := by
  intro h
  have hd := congrArg String.data h
  have h1 : (joinIdx pfx i).data = pfx.data ++ ('[' :: (natRep i ++ [']'])) := by
    simp [joinIdx, String.data_append, natStr_data]
  rw [h1] at hd
  simp at hd

mutual

/-- Below a nonempty path, the row paths of a value are the path
followed by each of its suffixes. -/
theorem frag_paths (v : Value) : ∀ pfx, pfx ≠ "" →
    (frag pfx v).map Row.property = (sfx v).map fun s => pfx ++ s := by
  cases v with
  | obj kvs => exact fun pfx hne => fragObj_paths kvs pfx hne
  | arr xs => exact fun pfx hne => fragArr_paths xs pfx 0
  | null =>
    intro pfx hne
    show [pfx] = [pfx ++ ""]
    rw [String.append_empty]
  | boolV b =>
    intro pfx hne
    show [pfx] = [pfx ++ ""]
    rw [String.append_empty]
  | intV i =>
    intro pfx hne
    show [pfx] = [pfx ++ ""]
    rw [String.append_empty]
  | strV s =>
    intro pfx hne
    show [pfx] = [pfx ++ ""]
    rw [String.append_empty]
termination_by structural v

/-- Mapping-loop version of `frag_paths`. -/
theorem fragObj_paths (kvs : List (String × Value)) : ∀ pfx, pfx ≠ "" →
    (fragObj pfx kvs).map Row.property = (sfxObj kvs).map fun s => pfx ++ s := by
  cases kvs with
  | nil => intro pfx hne; rfl
  | cons kv rest =>
    obtain ⟨k, v⟩ := kv
    intro pfx hne
    rw [fragObj_cons, List.map_append, sfxObj, List.map_append, List.map_map]
    have hjoin : joinKey pfx k = pfx ++ "." ++ k := by rw [joinKey, if_neg hne]
    have h1 : (frag (joinKey pfx k) v).map Row.property =
        (sfx v).map fun s => (pfx ++ "." ++ k) ++ s := by
      rw [hjoin] at *
      exact frag_paths v (pfx ++ "." ++ k) (dot_ext_ne pfx k)
    rw [h1, fragObj_paths rest pfx hne]
    congr 1
    apply List.map_congr_left
    intro s hs
    show (pfx ++ "." ++ k) ++ s = pfx ++ ("." ++ k ++ s)
    simp [String.append_assoc]
termination_by structural kvs

/-- Sequence-loop version of `frag_paths`; holds for every path,
including the empty root path. -/
theorem fragArr_paths (xs : List Value) : ∀ (pfx : String) (i : Nat),
    (fragArr pfx i xs).map Row.property = (sfxArr i xs).map fun s => pfx ++ s := by
  cases xs with
  | nil => intro pfx i; rfl
  | cons v rest =>
    intro pfx i
    rw [fragArr_cons, List.map_append, sfxArr, List.map_append, List.map_map]
    have h1 : (frag (joinIdx pfx i) v).map Row.property =
        (sfx v).map fun s => joinIdx pfx i ++ s :=
      frag_paths v (joinIdx pfx i) (idx_ext_ne pfx i)
    rw [h1, fragArr_paths rest pfx (i + 1)]
    congr 1
    apply List.map_congr_left
    intro s hs
    show joinIdx pfx i ++ s = pfx ++ ("[" ++ natStr i ++ "]" ++ s)
    simp [joinIdx, String.append_assoc]
termination_by structural xs

end

/-- At the root, a sequence's row paths are exactly its suffixes. -/
theorem rootPaths_arr (xs : List Value) :
    (frag "" (Value.arr xs)).map Row.property = sfxArr 0 xs := by
  have h1 : (frag "" (Value.arr xs)).map Row.property = (fragArr "" 0 xs).map Row.property := rfl
  rw [h1, fragArr_paths xs "" 0]
  have h2 : (fun s => ("" : String) ++ s) = fun (s : String) => s :=
    funext fun s => String.empty_append s
  rw [h2]
  simp

/-- At the root, the row paths of a mapping with good keys are the bare
key blocks. -/
theorem rootPaths_obj (kvs : List (String × Value)) (hf : WFFields kvs) :
    (frag "" (Value.obj kvs)).map Row.property = sfxObjRoot kvs := by
  have h0 : (frag "" (Value.obj kvs)).map Row.property = (fragObj "" kvs).map Row.property := rfl
  rw [h0]
  clear h0
  induction kvs with
  | nil => rfl
  | cons kv rest ih =>
    obtain ⟨k, v⟩ := kv
    have hf' : goodKey k ∧ WellFormed v ∧ WFFields rest := hf
    rw [fragObj_cons, List.map_append, sfxObjRoot]
    have hjoin : joinKey "" k = k := by rw [joinKey, if_pos rfl]
    have h1 : (frag (joinKey "" k) v).map Row.property = (sfx v).map fun s => k ++ s := by
      rw [hjoin]
      exact frag_paths v k hf'.1.1
    rw [h1, ih hf'.2.2]

/-- Counterexample to claim C6 as stated: the item
`{"a.b": 1, "a": {"b": 2}}` has two distinct leaf positions whose
property paths are both `a.b`, so flattening does lose the leaf
location. -/
theorem claim_C6_counterexample :
    flatten_item "" (Value.obj [("a.b", Value.intV 1), ("a", Value.obj [("b", Value.intV 2)])])
        [] = [⟨"a.b", "1"⟩, ⟨"a.b", "2"⟩]
    ∧ ¬ (itemPaths
        (Value.obj [("a.b", Value.intV 1), ("a", Value.obj [("b", Value.intV 2)])])).Nodup :=
  ⟨rfl, by decide⟩

/-- Claim C6 (amended): for items whose mapping keys are pairwise
distinct, nonempty, and free of the separator characters `.` and `[`,
distinct leaf positions produce distinct property paths: the flat rows'
path list has no duplicates. -/
theorem claim_C6 (v : Value) (h : WellFormed v) : (itemPaths v).Nodup := by
  have h0 : itemPaths v = (frag "" v).map Row.property := rfl
  rw [h0]
  cases v with
  | obj kvs =>
    have h' : (kvs.map Prod.fst).Nodup ∧ WFFields kvs := h
    rw [rootPaths_obj kvs h'.2]
    exact sfxObjRoot_nodup kvs h'.1 h'.2
  | arr xs =>
    rw [rootPaths_arr xs]
    exact sfxArr_nodup xs 0 h
  | null => simp [frag, flatten_item]
  | boolV b => simp [frag, flatten_item]
  | intV i => simp [frag, flatten_item]
  | strV s => simp [frag, flatten_item]

/-- Witness for the amended C6 on the well-formed item
`{"a": {"b": [1, 2]}}`. -/
theorem claim_C6_witness :
    WellFormed (Value.obj [("a", Value.obj [("b", Value.arr [Value.intV 1, Value.intV 2])])])
    ∧ (itemPaths
        (Value.obj [("a", Value.obj [("b", Value.arr [Value.intV 1, Value.intV 2])])])).Nodup := by
  have gka : goodKey "a" := by
    refine ⟨by decide, fun c hc => ?_⟩
    have hc' : c = 'a' := List.mem_singleton.mp hc
    rw [hc']
    exact ⟨by decide, by decide⟩
  have gkb : goodKey "b" := by
    refine ⟨by decide, fun c hc => ?_⟩
    have hc' : c = 'b' := List.mem_singleton.mp hc
    rw [hc']
    exact ⟨by decide, by decide⟩
  have wfarr : WellFormed (Value.arr [Value.intV 1, Value.intV 2]) := ⟨trivial, trivial, trivial⟩
  have wfinner : WellFormed (Value.obj [("b", Value.arr [Value.intV 1, Value.intV 2])]) :=
    ⟨by decide, gkb, wfarr, trivial⟩
  have wf : WellFormed
      (Value.obj [("a", Value.obj [("b", Value.arr [Value.intV 1, Value.intV 2])])]) :=
    ⟨by decide, gka, wfinner, trivial⟩
  exact ⟨wf, claim_C6 _ wf⟩

/-- The input after a literal tail is returned unchanged. -/
theorem expectChars_append (es rest : List Char) : expectChars es (es ++ rest) = some rest := by
  induction es with
  | nil => rfl
  | cons e es ih => simp [expectChars, ih]

/-- Hex digits of values below sixteen are accepted by the hex test. -/
theorem hexDigit_isHex : ∀ d, d < 16 → isHexC (hexDigit d) = true := by decide

/-- Hex digits decode to their value. -/
theorem hexVal_hexDigit : ∀ d, d < 16 → hexVal (hexDigit d) = d := by decide


/-- Round trip of the string-body reader over the escaper. -/
theorem parseStr_rt (l : List Char) : ∀ rest : List Char,
    parseStrChars (jEsc l ++ '"' :: rest) = some (l, rest) := by
  induction l with
  | nil => intro rest; rfl
  | cons c l' ih =>
    intro rest
    rw [jEsc, List.append_assoc]
    rw [jEscChar]
    by_cases h1 : c = '"'
    · subst h1
      simp only [if_pos rfl]
      simp [parseStrChars, parseEscape, isSimpleEsc, unescChar, ih rest]
    · rw [if_neg h1]
      by_cases h2 : c = '\\'
      · subst h2
        simp only [if_pos rfl]
        simp [parseStrChars, parseEscape, isSimpleEsc, unescChar, ih rest]
      · rw [if_neg h2]
        by_cases h3 : c = Char.ofNat 10
        · subst h3
          simp only [if_pos rfl]
          simp [parseStrChars, parseEscape, isSimpleEsc, unescChar, ih rest]
        · rw [if_neg h3]
          by_cases h4 : c = Char.ofNat 9
          · subst h4
            simp only [if_pos rfl]
            simp [parseStrChars, parseEscape, isSimpleEsc, unescChar, ih rest]
          · rw [if_neg h4]
            by_cases h5 : c = Char.ofNat 13
            · subst h5
              simp only [if_pos rfl]
              simp [parseStrChars, parseEscape, isSimpleEsc, unescChar, ih rest]
            · rw [if_neg h5]
              by_cases h6 : c = Char.ofNat 8
              · subst h6
                simp only [if_pos rfl]
                simp [parseStrChars, parseEscape, isSimpleEsc, unescChar, ih rest]
              · rw [if_neg h6]
                by_cases h7 : c = Char.ofNat 12
                · subst h7
                  simp only [if_pos rfl]
                  simp [parseStrChars, parseEscape, isSimpleEsc, unescChar, ih rest]
                · rw [if_neg h7]
                  by_cases h8 : c.toNat < 32
                  · rw [if_pos h8]
                    have hd1 : c.toNat / 16 < 16 := by omega
                    have hd2 : c.toNat % 16 < 16 := by omega
                    have hv : ((hexVal '0' * 16 + hexVal '0') * 16 +
                        hexVal (hexDigit (c.toNat / 16))) * 16 +
                        hexVal (hexDigit (c.toNat % 16)) = c.toNat := by
                      rw [hexVal_hexDigit _ hd1, hexVal_hexDigit _ hd2]
                      have h0 : hexVal '0' = 0 := by decide
                      rw [h0]
                      omega
                    simp only [List.cons_append, List.nil_append]
                    simp [parseStrChars, parseEscape, parseHex4, hexDigit_isHex _ hd1,
                      hexDigit_isHex _ hd2, (by decide : isHexC '0' = true), ih rest, hv,
                      Char.ofNat_toNat]
                  · rw [if_neg h8]
                    simp only [List.cons_append, List.nil_append]
                    simp [parseStrChars, h1, h2, ih rest]

/-- Taking while a predicate holds stops exactly at a failing head. -/
theorem takeWhile_exact (p : Char → Bool) (l₁ : List Char) : ∀ l₂ : List Char,
    (∀ c ∈ l₁, p c = true) →
    (l₂ = [] ∨ ∃ c t, l₂ = c :: t ∧ p c = false) →
    (l₁ ++ l₂).takeWhile p = l₁ := by
  induction l₁ with
  | nil =>
    intro l₂ h1 h2
    rcases h2 with rfl | ⟨c, t, rfl, hc⟩
    · rfl
    · simp [List.takeWhile_cons, hc]
  | cons c l' ih =>
    intro l₂ h1 h2
    rw [List.cons_append, List.takeWhile_cons, h1 c (by simp)]
    simp [ih l₂ (fun x hx => h1 x (by simp [hx])) h2]

/-- Round trip of the number reader over the decimal printer. -/
theorem parseNat_rt (n : Nat) (rest : List Char)
    (hrest : rest = [] ∨ ∃ c t, rest = c :: t ∧ isDigitC c = false) :
    parseNatNum (natRep n ++ rest) = some (n, rest) := by
  rw [parseNatNum]
  have htw : (natRep n ++ rest).takeWhile isDigitC = natRep n :=
    takeWhile_exact isDigitC (natRep n) rest (natRep_digits n) hrest
  rw [htw]
  have hne : natRep n ≠ [] := by
    rw [natRep]
    split
    · exact List.cons_ne_nil _ _
    · exact List.append_ne_nil_of_right_ne_nil _ (List.cons_ne_nil _ _)
  simp only [List.isEmpty_iff, hne, if_neg hne]
  rw [natRep_val, List.drop_left]
  simp [hne]

/-- Round trip of the integer reader over Python's integer printer. -/
theorem parseNum_rt (i : Int) (rest : List Char)
    (hrest : rest = [] ∨ ∃ c t, rest = c :: t ∧ isDigitC c = false) :
    parseNum ((intStr i).data ++ rest) = some (Value.intV i, rest) := by
  rw [intStr]
  by_cases hneg : i < 0
  · rw [if_pos hneg]
    have hd : (("-" ++ natStr i.natAbs).data) = '-' :: natRep i.natAbs := by
      simp [String.data_append, natStr_data]
    rw [hd, List.cons_append, parseNum]
    rw [if_pos rfl, parseNat_rt i.natAbs rest hrest]
    have hval : -(i.natAbs : Int) = i := by omega
    show some (Value.intV (-(i.natAbs : Int)), rest) = some (Value.intV i, rest)
    rw [hval]
  · rw [if_neg hneg]
    rw [natStr_data]
    obtain ⟨c, cs, hc⟩ : ∃ c cs, natRep i.natAbs = c :: cs := by
      cases hne : natRep i.natAbs with
      | nil =>
        exfalso
        have := natRep_val i.natAbs
        rw [hne] at this
        have h0 : i.natAbs = 0 := by simpa [digsVal] using this.symm
        rw [natRep, dif_pos (by omega : i.natAbs < 10)] at hne
        exact List.cons_ne_nil _ _ hne
      | cons c cs => exact ⟨c, cs, rfl⟩
    rw [hc, List.cons_append, parseNum]
    have hdig : isDigitC c = true := natRep_digits i.natAbs c (by rw [hc]; simp)
    have hcne : ¬ c = '-' := by
      intro hcc
      rw [hcc] at hdig
      exact absurd hdig (by decide)
    rw [if_neg hcne, ← List.cons_append, ← hc, parseNat_rt i.natAbs rest hrest]
    have hval : (i.natAbs : Int) = i := by omega
    show some (Value.intV ((i.natAbs : Int)), rest) = some (Value.intV i, rest)
    rw [hval]

/-- A decimal representation is never empty. -/
theorem natRep_ne_nil (n : Nat) : natRep n ≠ [] := by
  rw [natRep]
  split
  · exact List.cons_ne_nil _ _
  · exact List.append_ne_nil_of_right_ne_nil _ (List.cons_ne_nil _ _)

/-- A digit is none of the dispatch characters of the value reader. -/
theorem isDigitC_ne (c : Char) (h : isDigitC c = true) :
    c ≠ '"' ∧ c ≠ '[' ∧ c ≠ lbraceC ∧ c ≠ 't' ∧ c ≠ 'f' ∧ c ≠ 'n' ∧ c ≠ ']' := by
  refine ⟨?_, ?_, ?_, ?_, ?_, ?_, ?_⟩ <;>
    exact fun hc => by rw [hc] at h; exact absurd h (by decide)

/-- Data of a serialized string value. -/
theorem jdump_str_data (s : String) :
    (jdump (Value.strV s)).data = '"' :: (jEsc s.data ++ ('"' :: [])) := by
  have h : jdump (Value.strV s) = jStr s := rfl
  rw [h, jStr]
  simp [String.data_append]

/-- Data of a serialized sequence. -/
theorem jdump_arr_data (xs : List Value) :
    (jdump (Value.arr xs)).data = '[' :: ((jdumpElems xs).data ++ (']' :: [])) := by
  have h : jdump (Value.arr xs) = "[" ++ jdumpElems xs ++ "]" := by rw [jdump]
  rw [h]
  simp [String.data_append]

/-- Data of a serialized mapping. -/
theorem jdump_obj_data (kvs : List (String × Value)) :
    (jdump (Value.obj kvs)).data =
      lbraceC :: ((jdumpFields kvs).data ++ (rbraceC :: [])) := by
  have h : jdump (Value.obj kvs) =
      String.singleton lbraceC ++ jdumpFields kvs ++ String.singleton rbraceC := by rw [jdump]
  rw [h]
  simp [String.data_append, String.singleton]

/-- The serialization of a value starts with a character that is not a
closing bracket. -/
theorem jdump_head (v : Value) : ∃ c cs, (jdump v).data = c :: cs ∧ c ≠ ']' := by
  cases v with
  | null => exact ⟨'n', ['u', 'l', 'l'], rfl, by decide⟩
  | boolV b =>
    cases b with
    | true => exact ⟨'t', ['r', 'u', 'e'], rfl, by decide⟩
    | false => exact ⟨'f', ['a', 'l', 's', 'e'], rfl, by decide⟩
  | strV s => exact ⟨'"', jEsc s.data ++ ('"' :: []), jdump_str_data s, by decide⟩
  | arr xs => exact ⟨'[', (jdumpElems xs).data ++ (']' :: []), jdump_arr_data xs, by decide⟩
  | obj kvs =>
    exact ⟨lbraceC, (jdumpFields kvs).data ++ (rbraceC :: []), jdump_obj_data kvs,
      by rw [lbraceC]; decide⟩
  | intV i =>
    rw [show jdump (Value.intV i) = intStr i from rfl, intStr]
    by_cases hneg : i < 0
    · rw [if_pos hneg]
      refine ⟨'-', natRep i.natAbs, ?_, by decide⟩
      simp [String.data_append, natStr_data]
    · rw [if_neg hneg, natStr_data]
      obtain ⟨c, cs, hc⟩ := List.exists_cons_of_ne_nil (natRep_ne_nil i.natAbs)
      have hdig : isDigitC c = true := natRep_digits i.natAbs c (by rw [hc]; simp)
      exact ⟨c, cs, hc, (isDigitC_ne c hdig).2.2.2.2.2.2⟩

/-- A nonempty element list serializes to its head's serialization
followed by some tail. -/
theorem jdumpElems_head (v : Value) (vs : List Value) :
    ∃ t, (jdumpElems (v :: vs)).data = (jdump v).data ++ t := by
  cases vs with
  | nil => exact ⟨[], by simp [jdumpElems]⟩
  | cons w r =>
    refine ⟨',' :: (jdumpElems (w :: r)).data, ?_⟩
    rw [jdumpElems]
    simp [String.data_append]

/-- Data of a single-entry field list. -/
theorem jdumpFields_single_data (k : String) (v : Value) :
    (jdumpFields [(k, v)]).data =
      '"' :: (jEsc k.data ++ ('"' :: (':' :: (jdump v).data))) := by
  rw [jdumpFields, jStr]
  simp [String.data_append]

/-- Data of a multi-entry field list. -/
theorem jdumpFields_cons2_data (k : String) (v : Value) (kv : String × Value)
    (r : List (String × Value)) :
    (jdumpFields ((k, v) :: kv :: r)).data =
      '"' :: (jEsc k.data ++ ('"' :: (':' :: ((jdump v).data ++
        (',' :: (jdumpFields (kv :: r)).data))))) := by
  rw [jdumpFields, jStr]
  simp [String.data_append]

mutual

/-- With enough fuel, the value reader consumes exactly the
serialization of `v` and returns `v`, provided the rest does not start
with a digit. -/
theorem parseVal_rt (v : Value) : ∀ (fuel : Nat) (rest : List Char), pfuel v ≤ fuel →
    restOk rest → parseVal fuel ((jdump v).data ++ rest) = some (v, rest) := by
  cases v with
  | null =>
    intro fuel rest hf hr
    have hp : pfuel Value.null = 1 := rfl
    cases fuel with
    | zero => omega
    | succ f =>
      have hd : (jdump Value.null).data ++ rest = 'n' :: ('u' :: 'l' :: 'l' :: rest) := rfl
      rw [hd, parseVal]
      simp [expectChars, (by decide : ¬ ('n' : Char) = lbraceC)]
  | boolV b =>
    intro fuel rest hf hr
    have hp : pfuel (Value.boolV b) = 1 := rfl
    cases fuel with
    | zero => omega
    | succ f =>
      cases b with
      | true =>
        have hd : (jdump (Value.boolV true)).data ++ rest =
            't' :: ('r' :: 'u' :: 'e' :: rest) := rfl
        rw [hd, parseVal]
        simp [expectChars, (by decide : ¬ ('t' : Char) = lbraceC)]
      | false =>
        have hd : (jdump (Value.boolV false)).data ++ rest =
            'f' :: ('a' :: 'l' :: 's' :: 'e' :: rest) := rfl
        rw [hd, parseVal]
        simp [expectChars, (by decide : ¬ ('f' : Char) = lbraceC)]
  | strV s =>
    intro fuel rest hf hr
    have hp : pfuel (Value.strV s) = 1 := rfl
    cases fuel with
    | zero => omega
    | succ f =>
      have hd : (jdump (Value.strV s)).data ++ rest = '"' :: (jEsc s.data ++ ('"' :: rest)) := by
        rw [jdump_str_data]
        simp
      rw [hd, parseVal]
      simp [parseStr_rt s.data rest, (by decide : ¬ ('"' : Char) = lbraceC)]
  | intV i =>
    intro fuel rest hf hr
    have hp : pfuel (Value.intV i) = 1 := rfl
    cases fuel with
    | zero => omega
    | succ f =>
      by_cases hneg : i < 0
      · have hd : (jdump (Value.intV i)).data ++ rest = '-' :: (natRep i.natAbs ++ rest) := by
          rw [show jdump (Value.intV i) = intStr i from rfl, intStr, if_pos hneg]
          simp [String.data_append, natStr_data]
        rw [hd, parseVal, if_neg (by decide), if_neg (by decide), if_neg (by decide),
          if_neg (by decide), if_neg (by decide), if_neg (by decide)]
        have hform : '-' :: (natRep i.natAbs ++ rest) = (intStr i).data ++ rest := by
          rw [intStr, if_pos hneg]
          simp [String.data_append, natStr_data]
        rw [hform, parseNum_rt i rest hr]
      · obtain ⟨c, cs, hc⟩ := List.exists_cons_of_ne_nil (natRep_ne_nil i.natAbs)
        have hdig : isDigitC c = true := natRep_digits i.natAbs c (by rw [hc]; simp)
        have hne := isDigitC_ne c hdig
        have hd : (jdump (Value.intV i)).data ++ rest = c :: (cs ++ rest) := by
          rw [show jdump (Value.intV i) = intStr i from rfl, intStr, if_neg hneg,
            natStr_data, hc]
          simp
        rw [hd, parseVal, if_neg hne.1, if_neg hne.2.1, if_neg hne.2.2.1,
          if_neg hne.2.2.2.1, if_neg hne.2.2.2.2.1, if_neg hne.2.2.2.2.2.1]
        have hform : c :: (cs ++ rest) = (intStr i).data ++ rest := by
          rw [intStr, if_neg hneg, natStr_data, hc]
          simp
        rw [hform, parseNum_rt i rest hr]
  | arr xs =>
    intro fuel rest hf hr
    have hp : pfuel (Value.arr xs) = 1 + pfuelList xs := rfl
    cases fuel with
    | zero => omega
    | succ f =>
      cases xs with
      | nil =>
        have hd : (jdump (Value.arr [])).data ++ rest = '[' :: (']' :: rest) := by
          rw [jdump_arr_data]
          simp [jdumpElems]
        rw [hd, parseVal, if_neg (by decide), if_pos rfl, parseArrTail, if_pos rfl]
      | cons w ws =>
        obtain ⟨t, htl⟩ := jdumpElems_head w ws
        obtain ⟨c, cs, hc, hcne⟩ := jdump_head w
        have hd : (jdump (Value.arr (w :: ws))).data ++ rest =
            '[' :: (c :: (cs ++ (t ++ (']' :: rest)))) := by
          rw [jdump_arr_data, htl, hc]
          simp
        rw [hd, parseVal, if_neg (by decide), if_pos rfl, parseArrTail, if_neg hcne]
        have hback : c :: (cs ++ (t ++ (']' :: rest))) =
            (jdumpElems (w :: ws)).data ++ (']' :: rest) := by
          rw [htl, hc]
          simp
        rw [hback, parseElems_rt (w :: ws) f rest (List.cons_ne_nil _ _) (by
          have hq : pfuelList (w :: ws) = 1 + pfuel w + pfuelList ws := rfl
          omega)]
        rfl
  | obj kvs =>
    intro fuel rest hf hr
    have hp : pfuel (Value.obj kvs) = 1 + pfuelFields kvs := rfl
    cases fuel with
    | zero => omega
    | succ f =>
      cases kvs with
      | nil =>
        have hd : (jdump (Value.obj [])).data ++ rest = lbraceC :: (rbraceC :: rest) := by
          rw [jdump_obj_data]
          simp [jdumpFields]
        rw [hd, parseVal, if_neg (by decide), if_neg (by decide), if_pos rfl, parseObjTail,
          if_pos rfl]
      | cons kv kvr =>
        obtain ⟨k, v⟩ := kv
        have hX : ∃ X, (jdumpFields ((k, v) :: kvr)).data = '"' :: X := by
          cases kvr with
          | nil => exact ⟨_, jdumpFields_single_data k v⟩
          | cons kv₂ r₂ => exact ⟨_, jdumpFields_cons2_data k v kv₂ r₂⟩
        obtain ⟨X, hXe⟩ := hX
        have hd : (jdump (Value.obj ((k, v) :: kvr))).data ++ rest =
            lbraceC :: ('"' :: (X ++ (rbraceC :: rest))) := by
          rw [jdump_obj_data, hXe]
          simp
        rw [hd, parseVal, if_neg (by decide), if_neg (by decide), if_pos rfl, parseObjTail,
          if_neg (by decide)]
        have hback : '"' :: (X ++ (rbraceC :: rest)) =
            (jdumpFields ((k, v) :: kvr)).data ++ (rbraceC :: rest) := by
          rw [hXe]
          simp
        rw [hback, parseFields_rt ((k, v) :: kvr) f rest (List.cons_ne_nil _ _) (by
          have hq : pfuelFields ((k, v) :: kvr) = 1 + pfuel v + pfuelFields kvr := rfl
          omega)]
        rfl
termination_by structural v

/-- With enough fuel, the element reader consumes the comma-joined
serializations and the closing bracket. -/
theorem parseElems_rt (xs : List Value) : ∀ (fuel : Nat) (rest : List Char), xs ≠ [] →
    pfuelList xs ≤ fuel →
    parseElems fuel ((jdumpElems xs).data ++ (']' :: rest)) = some (xs, rest) := by
  cases xs with
  | nil => exact fun fuel rest hne _ => absurd rfl hne
  | cons v vs =>
    intro fuel rest hne hf
    have hp : pfuelList (v :: vs) = 1 + pfuel v + pfuelList vs := rfl
    cases fuel with
    | zero => omega
    | succ f =>
      rw [parseElems]
      cases vs with
      | nil =>
        have hd : (jdumpElems [v]).data ++ (']' :: rest) = (jdump v).data ++ (']' :: rest) := by
          rw [jdumpElems]
        rw [hd, parseVal_rt v f (']' :: rest) (by omega) (Or.inr ⟨']', rest, rfl, by decide⟩)]
        rfl
      | cons w ws =>
        have hd : (jdumpElems (v :: w :: ws)).data ++ (']' :: rest) =
            (jdump v).data ++ (',' :: ((jdumpElems (w :: ws)).data ++ (']' :: rest))) := by
          rw [jdumpElems]
          simp [String.data_append]
        rw [hd, parseVal_rt v f (',' :: ((jdumpElems (w :: ws)).data ++ (']' :: rest)))
          (by omega) (Or.inr ⟨',', _, rfl, by decide⟩)]
        show (parseElems f ((jdumpElems (w :: ws)).data ++ (']' :: rest))).map
          (fun q => (v :: q.1, q.2)) = some (v :: w :: ws, rest)
        rw [parseElems_rt (w :: ws) f rest (List.cons_ne_nil _ _) (by
          have hq : pfuelList (w :: ws) = 1 + pfuel w + pfuelList ws := rfl
          omega)]
        rfl
termination_by structural xs

/-- With enough fuel, the field reader consumes the comma-joined
`"key":value` serializations and the closing brace. -/
theorem parseFields_rt (kvs : List (String × Value)) : ∀ (fuel : Nat) (rest : List Char),
    kvs ≠ [] → pfuelFields kvs ≤ fuel →
    parseFields fuel ((jdumpFields kvs).data ++ (rbraceC :: rest)) = some (kvs, rest) := by
  cases kvs with
  | nil => exact fun fuel rest hne _ => absurd rfl hne
  | cons kv kvr =>
    obtain ⟨k, v⟩ := kv
    intro fuel rest hne hf
    have hp : pfuelFields ((k, v) :: kvr) = 1 + pfuel v + pfuelFields kvr := rfl
    cases fuel with
    | zero => omega
    | succ f =>
      cases kvr with
      | nil =>
        have hd : (jdumpFields [(k, v)]).data ++ (rbraceC :: rest) =
            '"' :: (jEsc k.data ++ ('"' :: (':' :: ((jdump v).data ++ (rbraceC :: rest))))) := by
          rw [jdumpFields_single_data]
          simp
        rw [hd, parseFields, if_pos rfl, parseStr_rt k.data]
        show (parseVal f ((jdump v).data ++ (rbraceC :: rest))).bind _ = _
        rw [parseVal_rt v f (rbraceC :: rest) (by omega)
          (Or.inr ⟨rbraceC, rest, rfl, by decide⟩)]
        show (if rbraceC = rbraceC then some ([(⟨k.data⟩, v)], rest) else none) =
          some ([(k, v)], rest)
        rw [if_pos rfl]
      | cons kv₂ r₂ =>
        have hd : (jdumpFields ((k, v) :: kv₂ :: r₂)).data ++ (rbraceC :: rest) =
            '"' :: (jEsc k.data ++ ('"' :: (':' :: ((jdump v).data ++
              (',' :: ((jdumpFields (kv₂ :: r₂)).data ++ (rbraceC :: rest))))))) := by
          rw [jdumpFields_cons2_data]
          simp
        rw [hd, parseFields, if_pos rfl, parseStr_rt k.data]
        show (parseVal f ((jdump v).data ++
          (',' :: ((jdumpFields (kv₂ :: r₂)).data ++ (rbraceC :: rest))))).bind _ = _
        rw [parseVal_rt v f (',' :: ((jdumpFields (kv₂ :: r₂)).data ++ (rbraceC :: rest)))
          (by omega) (Or.inr ⟨',', _, rfl, by decide⟩)]
        show (parseFields f ((jdumpFields (kv₂ :: r₂)).data ++ (rbraceC :: rest))).map
          (fun q => ((⟨k.data⟩, v) :: q.1, q.2)) = some ((k, v) :: kv₂ :: r₂, rest)
        rw [parseFields_rt (kv₂ :: r₂) f rest (List.cons_ne_nil _ _) (by
          obtain ⟨k₂, v₂⟩ := kv₂
          have hq : pfuelFields ((k₂, v₂) :: r₂) = 1 + pfuel v₂ + pfuelFields r₂ := rfl
          omega)]
        rfl
termination_by structural kvs

end

mutual

/-- The fuel needed by the reader is at most twice the serialized
length. -/
theorem pf_le (v : Value) : pfuel v ≤ 2 * (jdump v).data.length := by
  cases v with
  | null => decide
  | boolV b => cases b <;> decide
  | strV s =>
    have hp : pfuel (Value.strV s) = 1 := rfl
    have hlen : (jdump (Value.strV s)).data.length = (jEsc s.data).length + 2 := by
      rw [jdump_str_data]
      simp
    omega
  | intV i =>
    obtain ⟨c, cs, hc, -⟩ := jdump_head (Value.intV i)
    have hp : pfuel (Value.intV i) = 1 := rfl
    have hlen : (jdump (Value.intV i)).data.length = cs.length + 1 := by
      rw [hc]
      simp
    omega
  | arr xs =>
    have h1 := pfList_le xs
    have hp : pfuel (Value.arr xs) = 1 + pfuelList xs := rfl
    have hlen : (jdump (Value.arr xs)).data.length = (jdumpElems xs).data.length + 2 := by
      rw [jdump_arr_data]
      simp
    omega
  | obj kvs =>
    have h1 := pfFields_le kvs
    have hp : pfuel (Value.obj kvs) = 1 + pfuelFields kvs := rfl
    have hlen : (jdump (Value.obj kvs)).data.length = (jdumpFields kvs).data.length + 2 := by
      rw [jdump_obj_data]
      simp
    omega
termination_by structural v

/-- Element-list version of the fuel bound. -/
theorem pfList_le (xs : List Value) :
    pfuelList xs ≤ 2 * (jdumpElems xs).data.length + 1 := by
  cases xs with
  | nil =>
    have hp : pfuelList [] = 0 := rfl
    omega
  | cons v vs =>
    cases vs with
    | nil =>
      have h1 := pf_le v
      have hp : pfuelList [v] = 1 + pfuel v + pfuelList [] := rfl
      have hp0 : pfuelList ([] : List Value) = 0 := rfl
      have hlen : (jdumpElems [v]).data = (jdump v).data := by rw [jdumpElems]
      rw [hp, hp0, hlen]
      omega
    | cons w r =>
      have h1 := pf_le v
      have h2 := pfList_le (w :: r)
      have hp : pfuelList (v :: w :: r) = 1 + pfuel v + pfuelList (w :: r) := rfl
      have hlen : (jdumpElems (v :: w :: r)).data.length =
          (jdump v).data.length + 1 + (jdumpElems (w :: r)).data.length := by
        rw [jdumpElems]
        simp [String.data_append]
        omega
      omega
termination_by structural xs

/-- Field-list version of the fuel bound. -/
theorem pfFields_le (kvs : List (String × Value)) :
    pfuelFields kvs ≤ 2 * (jdumpFields kvs).data.length + 1 := by
  cases kvs with
  | nil =>
    have hp : pfuelFields [] = 0 := rfl
    omega
  | cons kv kvr =>
    obtain ⟨k, v⟩ := kv
    cases kvr with
    | nil =>
      have h1 := pf_le v
      have hp : pfuelFields [(k, v)] = 1 + pfuel v + pfuelFields [] := rfl
      have hp0 : pfuelFields ([] : List (String × Value)) = 0 := rfl
      have hlen : (jdumpFields [(k, v)]).data.length =
          (jEsc k.data).length + 3 + (jdump v).data.length := by
        rw [jdumpFields_single_data]
        simp
        omega
      omega
    | cons kv₂ r₂ =>
      have h1 := pf_le v
      have h2 := pfFields_le (kv₂ :: r₂)
      have hp : pfuelFields ((k, v) :: kv₂ :: r₂) = 1 + pfuel v + pfuelFields (kv₂ :: r₂) := rfl
      have hlen : (jdumpFields ((k, v) :: kv₂ :: r₂)).data.length =
          (jEsc k.data).length + 4 + (jdump v).data.length +
            (jdumpFields (kv₂ :: r₂)).data.length := by
        rw [jdumpFields_cons2_data]
        simp
        omega
      omega
termination_by structural kvs

end

/-- Deserializing the compact serialization of any value returns that
value. -/
theorem loads_safe_json (v : Value) : loads (safe_json v) = some v := by
  have hs : safe_json v = jdump v := rfl
  have hlen : (jdump v).length = (jdump v).data.length := rfl
  have hfuel : pfuel v ≤ 2 * (jdump v).length + 2 := by
    have := pf_le v
    omega
  have h := parseVal_rt v (2 * (jdump v).length + 2) [] hfuel (Or.inl rfl)
  rw [List.append_nil] at h
  rw [hs, loads, h]

/-- Claim C8: the compact per-URL summary serialization of a normalized
SyntaxResultSet round-trips through parsing — deserializing
`safe_json x` yields a value equal to `x`. -/
theorem claim_C8 (l₁ l₂ l₃ : List Value) :
    loads (safe_json (normObj [("json-ld", l₁), ("microdata", l₂), ("rdfa", l₃)])) =
      some (Value.obj
        [("json-ld", Value.arr l₁), ("microdata", Value.arr l₂), ("rdfa", Value.arr l₃)]) := by
  have h := loads_safe_json (normObj [("json-ld", l₁), ("microdata", l₂), ("rdfa", l₃)])
  have hn : normObj [("json-ld", l₁), ("microdata", l₂), ("rdfa", l₃)] =
      Value.obj [("json-ld", Value.arr l₁), ("microdata", Value.arr l₂),
        ("rdfa", Value.arr l₃)] := rfl
  rw [hn] at h
  exact h

end App
